import Mathlib

/-!
# Verification of the RAFS v6 direct-mapped metadata driver

A shallow embedding of `rafs/src/metadata/direct_v6.rs` from the
`image-service` repository, together with proofs about the embedded
operations.  Machine integers are modelled as `Nat`, with explicit
`% 2 ^ w` reductions at the points where the source performs narrowing
casts or wrapping arithmetic.  Rust arithmetic underflow/overflow and
`assert!`/`unwrap()` aborts are modelled by the explicit error value
`RafsErr.panicked`; fallible Rust functions returning `Result` are
modelled with `Except RafsErr`.

Helper code that lives in this repository but outside the provided
`src/` tree (the `nydus-utils` file map, the `layout` module, the
`storage` device types) is modelled from the specification; each such
definition carries a doc comment starting with `Modelled from the
spec:`.
-/

namespace RafsV6

/-! ## Constants from `metadata/layout/v6.rs` and `metadata/mod.rs` -/

def EROFS_BLOCK_SIZE : Nat := 4096
def EROFS_INODE_SLOT_SIZE : Nat := 32
def EROFS_I_VERSION_BITS : Nat := 1
def EROFS_I_DATALAYOUT_BITS : Nat := 3
def EROFS_INODE_FLAT_PLAIN : Nat := 0
def EROFS_INODE_FLAT_INLINE : Nat := 2
def EROFS_INODE_CHUNK_BASED : Nat := 4
def RAFS_MAX_NAME : Nat := 255

/-- `sizeof(RafsV6InodeCompact)` -/
def sizeof_compact : Nat := 32
/-- `sizeof(RafsV6InodeExtended)` -/
def sizeof_extended : Nat := 64
/-- `sizeof(RafsV6Dirent)`: `{ nid u64, name_off u16, file_type u8, reserved u8 }` -/
def sizeof_dirent : Nat := 12
/-- `sizeof(RafsV6InodeChunkAddr)`: 8-byte on-inode chunk address -/
def sizeof_chunk_addr : Nat := 8
/-- Modelled from the spec: fixed-size inline xattr entry (§3, §6). -/
def sizeof_xattr_entry : Nat := 4
/-- Modelled from the spec: inline xattr body header (§3). -/
def sizeof_xattr_header : Nat := 12
/-- `sizeof(RafsV5ChunkInfo)`: sidecar chunk-table row. -/
def sizeof_v5_chunk_info : Nat := 80

/-- POSIX `S_IFMT` file-kind mask on `mode`. -/
def S_IFMT : Nat := 0xF000
def S_IFDIR : Nat := 0x4000
def S_IFREG : Nat := 0x8000
def S_IFLNK : Nat := 0xA000

/-! ## Error kinds (§7)

`panicked` models a Rust abort: an `assert!`/`assert_eq!` failure,
an `unwrap()` of an error, or checked-arithmetic underflow/overflow
(which panics under debug assertions). -/

inductive RafsErr where
  | invalidData
  | incompatible
  | notFound
  | inval
  | badFd
  | notSupp
  | illegalMeta
  | swapBackend
  | panicked
  | outOfFuel
deriving DecidableEq, Repr

/-! ## Byte-string ordering

`OsStr` comparison in Rust is byte-wise lexicographic; names are
modelled as `List Nat` of byte values. -/

def bytesCmp : List Nat → List Nat → Ordering
  | [], [] => .eq
  | [], _ :: _ => .lt
  | _ :: _, [] => .gt
  | a :: as, b :: bs =>
    if a < b then .lt else if b < a then .gt else bytesCmp as bs

def bytesLt (a b : List Nat) : Prop := bytesCmp a b = .lt

instance : DecidablePred (fun p : List Nat × List Nat => bytesCmp p.1 p.2 = .lt) :=
  fun _ => inferInstance

instance (a b : List Nat) : Decidable (bytesLt a b) := by
  unfold bytesLt; infer_instance

/-- `h_name <= name` in the source is `¬ (name < h_name)`. -/
def bytesLe (a b : List Nat) : Prop := ¬ bytesLt b a

instance (a b : List Nat) : Decidable (bytesLe a b) := by
  unfold bytesLe; infer_instance

/-! ## On-disk record types -/

/-- Uniform view over `RafsV6InodeCompact` / `RafsV6InodeExtended`
(the `RafsV6OndiskInode` trait): both encodings expose the same
accessors, only the record size differs (decided by bit 0 of
`format`). -/
structure RafsV6Inode where
  format : Nat
  mode : Nat
  size : Nat
  union : Nat
  nlink : Nat
  xattr_icount : Nat
deriving DecidableEq, Repr

instance : Inhabited RafsV6Inode :=
  ⟨{ format := 0, mode := 0, size := 0, union := 0, nlink := 0, xattr_icount := 0 }⟩

/-- `RafsV6Dirent { e_nid, e_nameoff, e_file_type }`. -/
structure RafsV6Dirent where
  e_nid : Nat
  e_nameoff : Nat
  e_file_type : Nat
deriving DecidableEq, Repr

instance : Inhabited RafsV6Dirent := ⟨{ e_nid := 0, e_nameoff := 0, e_file_type := 0 }⟩

/-- `RafsV6XattrEntry { name_len u8, name_index u8, value_size u16 }`. -/
structure RafsV6XattrEntry where
  name_len : Nat
  name_index : Nat
  value_size : Nat
deriving DecidableEq, Repr

instance : Inhabited RafsV6XattrEntry := ⟨{ name_len := 0, name_index := 0, value_size := 0 }⟩

/-- `RafsV6InodeChunkAddr { blob_index, blob_ci_index, block_addr }`. -/
structure RafsV6InodeChunkAddr where
  blob_index : Nat
  blob_ci_index : Nat
  block_addr : Nat
deriving DecidableEq, Repr

instance : Inhabited RafsV6InodeChunkAddr :=
  ⟨{ blob_index := 0, blob_ci_index := 0, block_addr := 0 }⟩

/-- Modelled from the spec: blob descriptor (`BlobInfo` of the missing
`storage` crate, §3 "Blob table"); only the blob index is relevant to
the embedded operations. -/
structure BlobInfo where
  blob_index : Nat
deriving DecidableEq, Repr

/-! ## The bootstrap map

Modelled from the spec: `FileMapState` of the missing `nydus-utils`
crate (§4.A Bootstrap Map).  The map exposes (1) a typed reference at
an offset, (2) a byte slice at an offset, (3) a containment check;
every access is bounds-checked against the mapping length and fails
with `InvalidData` otherwise.  The typed views (`direntAt`, `inodeAt`,
…) model "typed reference at offset": total functions giving the
record decoded at a byte offset, with the containment check applied
separately by the accessors below. -/
structure FileMapState where
  size : Nat
  bytes : Nat → Nat
  inodeAt : Nat → RafsV6Inode
  direntAt : Nat → RafsV6Dirent
  xattrAt : Nat → RafsV6XattrEntry
  chunkAddrAt : Nat → RafsV6InodeChunkAddr

namespace FileMapState

/-- §4.A operation (2): slice at offset with containment check. -/
def get_slice (m : FileMapState) (off len : Nat) : Except RafsErr (List Nat) :=
  if off + len ≤ m.size then
    .ok ((List.range len).map fun i => m.bytes (off + i))
  else
    .error .invalidData

/-- §4.A operation (1), instantiated at `RafsV6Dirent`. -/
def get_dirent (m : FileMapState) (off : Nat) : Except RafsErr RafsV6Dirent :=
  if off + sizeof_dirent ≤ m.size then .ok (m.direntAt off) else .error .invalidData

/-- §4.A operation (1), instantiated at `RafsV6XattrEntry`. -/
def get_xattr_entry (m : FileMapState) (off : Nat) : Except RafsErr RafsV6XattrEntry :=
  if off + sizeof_xattr_entry ≤ m.size then .ok (m.xattrAt off) else .error .invalidData

/-- `get_slice::<RafsV6InodeChunkAddr>(offset, count)`: typed slice of
`count` chunk-address records. -/
def get_chunk_addrs (m : FileMapState) (off count : Nat) :
    Except RafsErr (List RafsV6InodeChunkAddr) :=
  if off + count * sizeof_chunk_addr ≤ m.size then
    .ok ((List.range count).map fun k => m.chunkAddrAt (off + k * sizeof_chunk_addr))
  else
    .error .invalidData

/-- §4.A operation (3): assert containment without producing a reference. -/
def validate_range (m : FileMapState) (off len : Nat) : Except RafsErr Unit :=
  if off + len ≤ m.size then .ok () else .error .invalidData

end FileMapState

/-! ## Superblock metadata and state -/

/-- Fields of `RafsSuperMeta` consumed by `direct_v6.rs`. -/
structure RafsSuperMeta where
  meta_blkaddr : Nat
  root_nid : Nat
  chunk_size : Nat
  blob_table_offset : Nat
  blob_table_size : Nat
  chunk_table_offset : Nat
  chunk_table_size : Nat
  is_chunk_dict : Bool
deriving DecidableEq, Repr

/-- `DirectMappingState`: the hot-swappable (meta, blob table, map) tuple. -/
structure DirectMappingState where
  meta : RafsSuperMeta
  blob_table : List BlobInfo
  map : FileMapState

/-- `DirectCachedInfo`: values cached outside the swappable state. -/
structure DirectCachedInfo where
  meta_offset : Nat
  root_ino : Nat
  chunk_size : Nat
deriving Repr

/-- `DirectSuperBlockV6::get_max_ino`: `0xff_ffff_ffff_ffff - 1`. -/
def get_max_ino : Nat := 0xffffffffffffff - 1

/-! ## Numeric helpers

Modelled from the spec: `div_round_up` / `round_up` of the missing
`nydus-utils` crate — ceiling division and rounding up to a multiple
(§4.C derived quantities). -/

def div_round_up (n d : Nat) : Nat := (n + d - 1) / d

def round_up (n d : Nat) : Nat := if n = 0 then 0 else ((n - 1) / d + 1) * d

/-! ## Inode decoding -/

/-- `DirectSuperBlockV6::disk_inode`: peek the compact record, then
re-read as extended when the version bit is set.  Both typed reads are
containment-checked; the typed view returns the uniform record either
way. -/
def diskInodeAt (state : DirectMappingState) (offset : Nat) : Except RafsErr RafsV6Inode :=
  if offset + sizeof_compact ≤ state.map.size then
    let i := state.map.inodeAt offset
    if i.format % 2 = 0 then
      .ok i
    else if offset + sizeof_extended ≤ state.map.size then
      .ok i
    else
      .error .invalidData
  else
    .error .invalidData

/-- `OndiskInodeWrapper`: a thin handle of (offset, blocks_count,
cached parent, cached name); names are byte strings. -/
structure OndiskInodeWrapper where
  offset : Nat
  blocks_count : Nat
  parent_inode : Option Nat
  name : Option (List Nat)
deriving DecidableEq, Repr

namespace OndiskInodeWrapper

/-- `OndiskInodeWrapper::new`. -/
def new (state : DirectMappingState) (offset : Nat) : Except RafsErr OndiskInodeWrapper :=
  (diskInodeAt state offset).map fun inode =>
    { offset := offset
      blocks_count := div_round_up inode.size EROFS_BLOCK_SIZE
      parent_inode := none
      name := none }

/-- `OndiskInodeWrapper::ino`: `(offset - meta_offset) / EROFS_INODE_SLOT_SIZE`. -/
def ino (info : DirectCachedInfo) (w : OndiskInodeWrapper) : Nat :=
  (w.offset - info.meta_offset) / EROFS_INODE_SLOT_SIZE

end OndiskInodeWrapper

/-- `DirectSuperBlockV6::inode_wrapper`: compute
`offset = meta_offset + nid * EROFS_INODE_SLOT_SIZE` and materialize a
handle. -/
def inode_wrapper (info : DirectCachedInfo) (state : DirectMappingState) (nid : Nat) :
    Except RafsErr OndiskInodeWrapper :=
  OndiskInodeWrapper.new state (info.meta_offset + nid * EROFS_INODE_SLOT_SIZE)

/-- `DirectSuperBlockV6::inode_wrapper_with_info`: like `inode_wrapper`
but populating the cached parent nid and name. -/
def inode_wrapper_with_info (info : DirectCachedInfo) (state : DirectMappingState)
    (nid parent_inode : Nat) (name : List Nat) : Except RafsErr OndiskInodeWrapper :=
  (inode_wrapper info state nid).map fun inode =>
    { inode with parent_inode := some parent_inode, name := some name }

/-- `DirectSuperBlockV6::get_inode` (digest validation is a no-op). -/
def get_inode (info : DirectCachedInfo) (state : DirectMappingState) (ino : Nat) :
    Except RafsErr OndiskInodeWrapper :=
  inode_wrapper info state ino

/-! ## Inode decoder: derived quantities (§4.C) -/

/-- `OndiskInodeWrapper::inode_size`: 64 bytes when the version bit
(bit 0 of `format`) is set, else 32. -/
def inode_size (inode : RafsV6Inode) : Nat :=
  if inode.format % 2 = 1 then sizeof_extended else sizeof_compact

/-- `OndiskInodeWrapper::xattr_size`. -/
def xattr_size (inode : RafsV6Inode) : Nat :=
  if inode.xattr_icount > 0 then
    (inode.xattr_icount - 1) * sizeof_xattr_entry + sizeof_xattr_header
  else 0

/-- `OndiskInodeWrapper::inode_xattr_size`: rounded up to the
chunk-address alignment. -/
def inode_xattr_size (inode : RafsV6Inode) : Nat :=
  round_up (inode_size inode + xattr_size inode) sizeof_chunk_addr

/-- `mode_format_bits` comparisons. -/
def is_dir (inode : RafsV6Inode) : Bool := inode.mode &&& S_IFMT == S_IFDIR
def is_reg (inode : RafsV6Inode) : Bool := inode.mode &&& S_IFMT == S_IFREG
def is_symlink (inode : RafsV6Inode) : Bool := inode.mode &&& S_IFMT == S_IFLNK

/-- `OndiskInodeWrapper::data_block_offset`.  The reserved-bits check
`format & !(((1 << EROFS_I_DATALAYOUT_BITS) - 1) << 1 | EROFS_I_VERSION_BITS)`
is the u16 mask `0xFFF0`.  The source compares
`index as u64 != self.blocks_count() - 1` with u64 wrap-around; for
`blocks_count = 0` the wrapped value `2^64 - 1` is unreachable as an
index, so the comparison is equivalent to `index + 1 ≠ blocks_count`. -/
def data_block_offset (w : OndiskInodeWrapper) (inode : RafsV6Inode) (index : Nat) :
    Except RafsErr Nat :=
  if inode.format &&& 0xFFF0 ≠ 0 then .error .incompatible
  else
    let layout := inode.format >>> EROFS_I_VERSION_BITS
    if layout = EROFS_INODE_FLAT_PLAIN then
      .ok (inode.union * EROFS_BLOCK_SIZE + index * EROFS_BLOCK_SIZE)
    else if layout = EROFS_INODE_FLAT_INLINE then
      if index + 1 ≠ w.blocks_count then
        .ok (inode.union * EROFS_BLOCK_SIZE + index * EROFS_BLOCK_SIZE)
      else
        .ok (w.offset + inode_xattr_size inode)
    else .error .invalidData

/-- `OndiskInodeWrapper::get_entry`: dirent `index` of data block
`block_index` (all map errors become `InvalidData`). -/
def get_entry (w : OndiskInodeWrapper) (state : DirectMappingState) (inode : RafsV6Inode)
    (block_index index : Nat) : Except RafsErr RafsV6Dirent := do
  let offset ← data_block_offset w inode block_index
  state.map.get_dirent (offset + sizeof_dirent * index)

/-- The name-trimming loop at the end of `entry_name`: longest prefix
of non-NUL bytes. -/
def takeNonNul (buf : List Nat) : List Nat := buf.takeWhile (fun b => b != 0)

/-- `OndiskInodeWrapper::entry_name`.  `self.size()` re-reads the
wrapper's own disk inode, which is the `inode` argument here.  The
u16/u64 subtractions other than the explicit `checked_sub` underflow
to a Rust panic (debug assertions), modelled as `panicked`. -/
def entry_name (w : OndiskInodeWrapper) (state : DirectMappingState) (inode : RafsV6Inode)
    (block_index index max_entries : Nat) : Except RafsErr (List Nat) := do
  let offset ← data_block_offset w inode block_index
  let de ← get_entry w state inode block_index index
  if index < max_entries - 1 then
    let next_de ← get_entry w state inode block_index (index + 1)
    if de.e_nameoff ≤ next_de.e_nameoff then
      state.map.get_slice (offset + de.e_nameoff) (next_de.e_nameoff - de.e_nameoff)
    else
      .error .illegalMeta
  else
    let head_de ← get_entry w state inode block_index 0
    if de.e_nameoff < head_de.e_nameoff then .error .panicked
    else
      let s := (de.e_nameoff - head_de.e_nameoff) + sizeof_dirent * max_entries
      let limit :=
        if div_round_up inode.size EROFS_BLOCK_SIZE = block_index + 1 then
          inode.size % EROFS_BLOCK_SIZE
        else
          EROFS_BLOCK_SIZE
      if limit < s then .error .panicked
      else do
        let buf ← state.map.get_slice (offset + de.e_nameoff) (limit - s)
        .ok (takeNonNul buf)

/-! ## Directory lookup (§4.D) -/

/-- The `while first <= last` loop of `find_target_block`, with enough
fuel to cover every possible iteration count.  `last = pivot - 1` on a
`usize` underflows when `pivot = 0` (a Rust panic under debug
assertions); `entries_count - 1` likewise when a block reports zero
entries. -/
def ftb_loop (w : OndiskInodeWrapper) (state : DirectMappingState) (inode : RafsV6Inode)
    (name : List Nat) : Nat → Nat → Nat → Nat → Except RafsErr Nat
  | _first, _last, _target, 0 => .error .outOfFuel
  | first, last, target_block, fuel + 1 =>
    if first ≤ last then do
      let pivot := first + (last - first) / 2
      let head_entry ← get_entry w state inode pivot 0
      let entries_count := head_entry.e_nameoff / sizeof_dirent
      if entries_count = 0 then .error .panicked
      else do
        let h_name ← entry_name w state inode pivot 0 entries_count
        let t_name ← entry_name w state inode pivot (entries_count - 1) entries_count
        if bytesLe h_name name ∧ bytesLe name t_name then .ok pivot
        else if bytesLt name h_name then
          if pivot = 0 then .error .panicked
          else ftb_loop w state inode name first (pivot - 1) target_block fuel
        else ftb_loop w state inode name (pivot + 1) last target_block fuel
    else .ok target_block

/-- `OndiskInodeWrapper::find_target_block`. -/
def find_target_block (w : OndiskInodeWrapper) (state : DirectMappingState)
    (name : List Nat) : Except RafsErr Nat := do
  let inode ← diskInodeAt state w.offset
  if inode.size = 0 then .error .notFound
  else
    let blocks_count := div_round_up inode.size EROFS_BLOCK_SIZE
    ftb_loop w state inode name 0 (blocks_count - 1) 0 (blocks_count + 1)

/-- The in-block `while first <= last` binary search of
`get_child_by_name`. -/
def gcbn_loop (info : DirectCachedInfo) (w : OndiskInodeWrapper) (state : DirectMappingState)
    (inode : RafsV6Inode) (name : List Nat) (target_block entries_count : Nat) :
    Nat → Nat → Nat → Except RafsErr OndiskInodeWrapper
  | _first, _last, 0 => .error .outOfFuel
  | first, last, fuel + 1 =>
    if first ≤ last then do
      let pivot := first + (last - first) / 2
      let de ← get_entry w state inode target_block pivot
      let d_name ← entry_name w state inode target_block pivot entries_count
      match bytesCmp d_name name with
      | .eq => inode_wrapper_with_info info state de.e_nid (w.ino info) name
      | .lt => gcbn_loop info w state inode name target_block entries_count (pivot + 1) last fuel
      | .gt =>
        if pivot = 0 then .error .panicked
        else gcbn_loop info w state inode name target_block entries_count first (pivot - 1) fuel
    else .error .notFound

/-- `OndiskInodeWrapper::get_child_by_name`.  The source's
`if let Ok(target_block) = self.find_target_block(..)` swallows clean
errors into the final `enoent!()`; a panic aborts instead of being an
`Err`, so the `panicked` (and fuel) outcomes propagate. -/
def get_child_by_name (info : DirectCachedInfo) (w : OndiskInodeWrapper)
    (state : DirectMappingState) (name : List Nat) : Except RafsErr OndiskInodeWrapper := do
  let inode ← diskInodeAt state w.offset
  match find_target_block w state name with
  | .ok target_block => do
    let head_entry ← get_entry w state inode target_block 0
    let entries_count := head_entry.e_nameoff / sizeof_dirent
    if entries_count = 0 then .error .panicked
    else
      gcbn_loop info w state inode name target_block entries_count
        0 (entries_count - 1) (entries_count + 1)
  | .error e => if e = .panicked ∨ e = .outOfFuel then .error e else .error .notFound

/-! ## Directory enumeration (§4.D) -/

/-- Inner loop of `walk_children_inodes` over the dirents of one
block.  The handler is specialized to collection: every emitted entry
is recorded as `(name, nid)` and the walk continues.  The source
constructs a child wrapper before invoking the handler, so wrapper
construction failures propagate; for skipped entries (`skipped != 0`)
the dirent and name are still read but no wrapper is built. -/
def walk_entry_list (info : DirectCachedInfo) (w : OndiskInodeWrapper)
    (state : DirectMappingState) (inode : RafsV6Inode) (i ec : Nat) :
    List Nat → Nat → Except RafsErr (Nat × List (List Nat × Nat))
  | [], skipped => .ok (skipped, [])
  | j :: js, skipped => do
    let de ← get_entry w state inode i j
    let nm ← entry_name w state inode i j ec
    if skipped ≠ 0 then do
      let (sk, rest) ← walk_entry_list info w state inode i ec js (skipped - 1)
      .ok (sk, rest)
    else do
      let _child ← inode_wrapper_with_info info state de.e_nid (w.ino info) nm
      let (sk, rest) ← walk_entry_list info w state inode i ec js 0
      .ok (sk, (nm, de.e_nid) :: rest)

/-- Outer loop of `walk_children_inodes` over the data blocks. -/
def walk_block_list (info : DirectCachedInfo) (w : OndiskInodeWrapper)
    (state : DirectMappingState) (inode : RafsV6Inode) :
    List Nat → Nat → Except RafsErr (List (List Nat × Nat))
  | [], _ => .ok []
  | i :: is, skipped => do
    let head_entry ← get_entry w state inode i 0
    let ec := head_entry.e_nameoff / sizeof_dirent
    let (sk, es) ← walk_entry_list info w state inode i ec (List.range ec) skipped
    let rest ← walk_block_list info w state inode is sk
    .ok (es ++ rest)

/-- `OndiskInodeWrapper::walk_children_inodes` with a collecting
handler: returns the `(name, nid)` pairs emitted after skipping
`entry_offset` entries, in block-then-position order. -/
def walk_children_inodes (info : DirectCachedInfo) (w : OndiskInodeWrapper)
    (state : DirectMappingState) (entry_offset : Nat) :
    Except RafsErr (List (List Nat × Nat)) := do
  let inode ← diskInodeAt state w.offset
  if inode.size = 0 then .error .notFound
  else
    walk_block_list info w state inode
      (List.range (div_round_up inode.size EROFS_BLOCK_SIZE)) entry_offset

/-! ## Child count and validation (§4.I) -/

/-- Per-block dirent counts summed by `get_child_count`; the source
`unwrap()`s the head-entry read, so a failure aborts. -/
def get_child_count_blocks (w : OndiskInodeWrapper) (state : DirectMappingState)
    (inode : RafsV6Inode) : List Nat → Except RafsErr Nat
  | [] => .ok 0
  | i :: is =>
    match get_entry w state inode i 0 with
    | .error _ => .error .panicked
    | .ok head_entry => do
      let rest ← get_child_count_blocks w state inode is
      .ok (head_entry.e_nameoff / sizeof_dirent + rest)

/-- `OndiskInodeWrapper::get_child_count`.  For directories the final
`child_cnt - 2` is u32 arithmetic: it wraps for a total below 2
(a directory missing `.`/`..`). -/
def get_child_count (info : DirectCachedInfo) (w : OndiskInodeWrapper)
    (state : DirectMappingState) : Except RafsErr Nat := do
  let inode ← diskInodeAt state w.offset
  if ¬ is_dir inode then
    .ok (div_round_up inode.size info.chunk_size % 2 ^ 32)
  else do
    let cnt ← get_child_count_blocks w state inode
      (List.range (div_round_up inode.size EROFS_BLOCK_SIZE))
    .ok ((cnt % 2 ^ 32 + 2 ^ 32 - 2) % 2 ^ 32)

/-- `RafsInodeExt::name` for `OndiskInodeWrapper`:
`assert!(self.name.is_some())` aborts when no name is cached. -/
def name_fn (w : OndiskInodeWrapper) : Except RafsErr (List Nat) :=
  match w.name with
  | some n => .ok n
  | none => .error .panicked

/-- `OndiskInodeWrapper::get_name_size`: `self.name().len()`. -/
def get_name_size (w : OndiskInodeWrapper) : Except RafsErr Nat :=
  (name_fn w).map (·.length)

/-- `RafsInode::validate` for `OndiskInodeWrapper` (both arguments of
the source are ignored by it; `max_inode` is `get_max_ino`, the chunk
size comes from the cached info).  The `||` chain short-circuits, so
`get_name_size` runs only after the first two tests fail. -/
def validate (info : DirectCachedInfo) (w : OndiskInodeWrapper)
    (state : DirectMappingState) : Except RafsErr Unit := do
  let inode ← diskInodeAt state w.offset
  if w.ino info > get_max_ino then .error .badFd
  else if inode.nlink = 0 then .error .badFd
  else do
    let name_size ← get_name_size w
    if name_size > RAFS_MAX_NAME + 1 then .error .badFd
    else if is_reg inode then
      if state.meta.is_chunk_dict then .error .notSupp
      else
        let chunks := div_round_up inode.size info.chunk_size
        state.map.validate_range w.offset
          (inode_xattr_size inode + chunks * sizeof_chunk_addr)
    else if is_dir inode then do
      let cc ← get_child_count info w state
      if cc ≥ get_max_ino then .error .inval
      else state.map.validate_range w.offset (inode_size inode + xattr_size inode)
    else if is_symlink inode ∧ inode.size = 0 then .error .inval
    else .ok ()

/-! ## Xattr reader (§4.E) -/

/-- Modelled from the spec: `recover_namespace` of the missing
`layout/v6.rs` — maps the small integer prefix code to the POSIX
namespace prefix (`user.`, `system.`, `trusted.`, `security.`, or
empty), failing for unknown codes (§4.E, §6).  The concrete code
assignment is taken as 0 = empty, 1 = user., 2 = system.,
3 = trusted., 4 = security. -/
def recover_namespace (name_index : Nat) : Except RafsErr (List Nat) :=
  if name_index = 0 then .ok []
  else if name_index = 1 then .ok [117, 115, 101, 114, 46]
  else if name_index = 2 then .ok [115, 121, 115, 116, 101, 109, 46]
  else if name_index = 3 then .ok [116, 114, 117, 115, 116, 101, 100, 46]
  else if name_index = 4 then .ok [115, 101, 99, 117, 114, 105, 116, 121, 46]
  else .error .inval

/-- The `while remaining > 0` loop of `get_xattr`.  `remaining -= s`
is usize arithmetic and underflows (Rust panic under debug assertions)
when a record overruns the declared body size. -/
def get_xattr_loop (state : DirectMappingState) (name : List Nat) :
    Nat → Nat → Nat → Except RafsErr (Option (List Nat))
  | _offset, _remaining, 0 => .error .outOfFuel
  | offset, remaining, fuel + 1 =>
    if remaining = 0 then .ok none
    else do
      let e ← state.map.get_xattr_entry offset
      let ns ← recover_namespace e.name_index
      let suffix ← state.map.get_slice (offset + sizeof_xattr_entry) e.name_len
      if ns ++ suffix = name then do
        let data ← state.map.get_slice (offset + sizeof_xattr_entry + e.name_len) e.value_size
        .ok (some data)
      else
        let s := round_up (e.name_len + e.value_size + sizeof_xattr_entry) sizeof_xattr_entry
        if remaining < s then .error .panicked
        else get_xattr_loop state name (offset + s) (remaining - s) fuel

/-- `OndiskInodeWrapper::get_xattr`. -/
def get_xattr (w : OndiskInodeWrapper) (state : DirectMappingState) (name : List Nat) :
    Except RafsErr (Option (List Nat)) := do
  let inode ← diskInodeAt state w.offset
  let total := inode.xattr_icount
  if total = 0 then .ok none
  else
    let offset := w.offset + inode_size inode + sizeof_xattr_header
    let remaining := (total - 1) * sizeof_xattr_entry
    get_xattr_loop state name offset remaining (remaining + 1)

/-- The `while remaining > 0` loop of `get_xattrs` (the source reads
the name suffix before recovering the namespace here). -/
def get_xattrs_loop (state : DirectMappingState) :
    Nat → Nat → Nat → Except RafsErr (List (List Nat))
  | _offset, _remaining, 0 => .error .outOfFuel
  | offset, remaining, fuel + 1 =>
    if remaining = 0 then .ok []
    else do
      let e ← state.map.get_xattr_entry offset
      let nameBytes ← state.map.get_slice (offset + sizeof_xattr_entry) e.name_len
      let ns ← recover_namespace e.name_index
      let s := round_up (e.name_len + e.value_size + sizeof_xattr_entry) sizeof_xattr_entry
      if remaining < s then .error .panicked
      else do
        let rest ← get_xattrs_loop state (offset + s) (remaining - s) fuel
        .ok ((ns ++ nameBytes) :: rest)

/-- `OndiskInodeWrapper::get_xattrs` (`list_xattrs`). -/
def get_xattrs (w : OndiskInodeWrapper) (state : DirectMappingState) :
    Except RafsErr (List (List Nat)) := do
  let inode ← diskInodeAt state w.offset
  let total := inode.xattr_icount
  if total = 0 then .ok []
  else
    let offset := w.offset + inode_size inode + sizeof_xattr_header
    let remaining := (total - 1) * sizeof_xattr_entry
    get_xattrs_loop state offset remaining (remaining + 1)

/-! ## Chunk resolver (§4.F) -/

/-- Modelled from the spec: the external blob device's chunk-I/O
factory `create_io_chunk(blob_index, blob_ci_index) → handle?` (§6);
the handle is opaque. -/
structure BlobDevice where
  create_io_chunk : Nat → Nat → Option Nat

/-- Modelled from the spec: `BlobIoDesc` of the missing `storage`
crate — one chunk-I/O descriptor `(blob, handle, content_offset,
content_len, user-io flag)` (§4.F step 5). -/
structure BlobIoDesc where
  blob : BlobInfo
  chunkinfo : Nat
  c_offset : Nat
  c_len : Nat
  user_rq : Bool
deriving DecidableEq, Repr

/-- Modelled from the spec: `BlobIoVec` of the missing `storage`
crate — a vector of descriptors against a single blob; it records the
blob it was created for (§4.F step 4). -/
structure BlobIoVec where
  blob : BlobInfo
  bi_vec : List BlobIoDesc
deriving DecidableEq, Repr

def BlobIoVec.new (b : BlobInfo) : BlobIoVec := ⟨b, []⟩
def BlobIoVec.push (v : BlobIoVec) (d : BlobIoDesc) : BlobIoVec := ⟨v.blob, v.bi_vec ++ [d]⟩
def BlobIoVec.blob_index (v : BlobIoVec) : Nat := v.blob.blob_index

/-- `OndiskInodeWrapper::make_chunk_io`: resolve the blob from the
state's blob table, then ask the device for a chunk handle. -/
def make_chunk_io (state : DirectMappingState) (device : BlobDevice)
    (chunk_addr : RafsV6InodeChunkAddr) (content_offset content_len : Nat)
    (user_rq : Bool) : Option BlobIoDesc :=
  match state.blob_table.get? chunk_addr.blob_index with
  | none => none
  | some blob =>
    (device.create_io_chunk blob.blob_index chunk_addr.blob_ci_index).map fun v =>
      { blob := blob, chunkinfo := v, c_offset := content_offset, c_len := content_len,
        user_rq := user_rq }

/-- `OndiskInodeWrapper::chunk_addresses`: the on-inode chunk-address
slice from `head_chunk_index` on.  The `assert_eq!` on the layout and
the u32 underflow of `total - head` abort;
`total_chunk_addresses` is computed `as u32`, truncating mod `2^32`
(the caller also passes `head_chunk_index` as a u32). -/
def chunk_addresses (info : DirectCachedInfo) (w : OndiskInodeWrapper)
    (state : DirectMappingState) (inode : RafsV6Inode) (head_chunk_index : Nat) :
    Except RafsErr (List RafsV6InodeChunkAddr) :=
  if inode.format >>> EROFS_I_VERSION_BITS ≠ EROFS_INODE_CHUNK_BASED then .error .panicked
  else
    let total := div_round_up inode.size info.chunk_size % 2 ^ 32
    if total < head_chunk_index then .error .panicked
    else
      let offset := w.offset + inode_xattr_size inode + head_chunk_index * sizeof_chunk_addr
      state.map.get_chunk_addrs offset (total - head_chunk_index)

/-- The `for c in chunks.iter().skip(1)` loop of `alloc_bio_vecs`:
returns the accumulated vectors, the open vector, and the bytes still
unconsumed when the chunk list ran out. -/
def alloc_loop (state : DirectMappingState) (device : BlobDevice) (chunk_size : Nat)
    (user_rq : Bool) : List RafsV6InodeChunkAddr → Nat → BlobIoVec → List BlobIoVec →
    Except RafsErr (List BlobIoVec × BlobIoVec × Nat)
  | [], left, descs, vec => .ok (vec, descs, left)
  | c :: cs, left, descs, vec =>
    let content_len := min chunk_size left
    match make_chunk_io state device c 0 content_len user_rq with
    | none => .error .inval
    | some desc =>
      let acc :=
        if desc.blob.blob_index ≠ descs.blob_index then
          (vec ++ [descs], BlobIoVec.new desc.blob)
        else (vec, descs)
      let descs2 := acc.2.push desc
      let left2 := left - content_len
      if left2 = 0 then .ok (acc.1, descs2, 0)
      else alloc_loop state device chunk_size user_rq cs left2 descs2 acc.1

/-- `RafsInode::alloc_bio_vecs` for `OndiskInodeWrapper`.
`self.size() - offset` is u64 arithmetic (underflow aborts), the
`min(..) as u32` cast of `left` and the `head_chunk_index as u32`
cast at the `chunk_addresses` call truncate mod `2^32`, and the
trailing `assert_eq!(left, 0)` aborts when the chunk list
under-covers the request. -/
def alloc_bio_vecs (info : DirectCachedInfo) (w : OndiskInodeWrapper)
    (state : DirectMappingState) (device : BlobDevice) (offset sz : Nat)
    (user_rq : Bool) : Except RafsErr (List BlobIoVec) := do
  let inode ← diskInodeAt state w.offset
  let chunk_size := info.chunk_size
  let head_chunk_index := offset / chunk_size
  let chunks ← chunk_addresses info w state inode (head_chunk_index % 2 ^ 32)
  match chunks with
  | [] => .ok []
  | c0 :: rest =>
    if inode.size < offset then .error .panicked
    else
      let content_offset := offset % chunk_size
      let left0 := min (inode.size - offset) sz % 2 ^ 32
      let content_len0 := min (chunk_size - content_offset) left0
      match make_chunk_io state device c0 content_offset content_len0 user_rq with
      | none => .error .inval
      | some desc =>
        let descs := (BlobIoVec.new desc.blob).push desc
        let left1 := left0 - content_len0
        let r ← if left1 = 0 then (.ok ([], descs, 0) : Except RafsErr _)
                else alloc_loop state device chunk_size user_rq rest left1 descs []
        let vec := if r.2.1.bi_vec = [] then r.1 else r.1 ++ [r.2.1]
        if r.2.2 ≠ 0 then .error .panicked
        else .ok vec

/-! ## Hot-swap update (§4.G, §4.H) -/

/-- Modelled from the spec: `MetaRange` of the missing `layout`
module — a validated `[start, start + size)` byte range; with
`aligned` set, start and size must be block-aligned (§3 invariant 2,
§4.G). -/
structure MetaRange where
  start : Nat
  size : Nat
deriving DecidableEq, Repr

/-- Modelled from the spec: `MetaRange::new`. -/
def MetaRange.new (start size : Nat) (aligned : Bool) : Except RafsErr MetaRange :=
  if aligned ∧ (start % EROFS_BLOCK_SIZE ≠ 0 ∨ size % EROFS_BLOCK_SIZE ≠ 0) then
    .error .inval
  else .ok { start := start, size := size }

/-- Modelled from the spec: `MetaRange::is_subrange_of`. -/
def MetaRange.is_subrange_of (r parent : MetaRange) : Bool :=
  parent.start ≤ r.start && r.start + r.size ≤ parent.start + parent.size

/-- The external effects consumed by one `update_state` call: the
bootstrap file length read via `fstat`, the outcome of the streaming
blob-table parse, and the outcome of `FileMapState::new` (mmap). -/
structure UpdateInput where
  file_len : Nat
  blob_table_parse : Except RafsErr (List BlobInfo)
  file_map : Except RafsErr FileMapState

/-- The body of `DirectSuperBlockV6::update_state` up to (but not
including) the single `self.state.store`: every `?` early-return
happens before anything is published.  `len - EROFS_BLOCK_SIZE` is u64
arithmetic (underflow aborts).  The `readahead` call is a pure kernel
hint with no effect on the state. -/
def build_state (old : DirectMappingState) (r : UpdateInput) :
    Except RafsErr DirectMappingState := do
  if r.file_len < EROFS_BLOCK_SIZE then .error .panicked
  else do
    let md_range ← MetaRange.new EROFS_BLOCK_SIZE (r.file_len - EROFS_BLOCK_SIZE) true
    let blob_table_range ← MetaRange.new old.meta.blob_table_offset
      old.meta.blob_table_size false
    if ¬ MetaRange.is_subrange_of blob_table_range md_range then .error .badFd
    else do
      let blob_table ← r.blob_table_parse
      let map ← r.file_map
      .ok { meta := old.meta, blob_table := blob_table, map := map }

/-- `DirectSuperBlockV6::update_state`, with the `ArcSwap` publication
made explicit: the published tuple changes only by the final store on
success, so a failing call leaves it untouched. -/
def update_state (published : DirectMappingState) (r : UpdateInput) :
    DirectMappingState × Except RafsErr Unit :=
  match build_state published r with
  | .ok s => (s, .ok ())
  | .error e => (published, .error e)

/-- `RafsSuperBlock::update` for `DirectSuperBlockV6`: `update_state`
with the error wrapped as `SwapBackend`. -/
def update (published : DirectMappingState) (r : UpdateInput) :
    DirectMappingState × Except RafsErr Unit :=
  match update_state published r with
  | (s, .ok ()) => (s, .ok ())
  | (s, .error _) => (s, .error .swapBackend)

/-! ## Extended inode handles (§4.G) -/

/-- `OndiskInodeWrapper::get_parent`: look up `..` and cache its nid. -/
def get_parent (info : DirectCachedInfo) (w : OndiskInodeWrapper)
    (state : DirectMappingState) : Except RafsErr OndiskInodeWrapper := do
  let parent ← get_child_by_name info w state [46, 46]
  .ok { w with parent_inode := some (parent.ino info) }

/-- `OndiskInodeWrapper::get_name`: the root gets the empty name;
otherwise walk the parent's children for the entry carrying this nid
(`parent()` and the trailing `assert!(self.name.is_some())` abort when
the parent is not cached or no entry matches). -/
def get_name (info : DirectCachedInfo) (w : OndiskInodeWrapper)
    (state : DirectMappingState) : Except RafsErr OndiskInodeWrapper := do
  let cur_ino := w.ino info
  if cur_ino = info.root_ino then .ok { w with name := some [] }
  else do
    let parentNid ← match w.parent_inode with
      | some p => (.ok p : Except RafsErr Nat)
      | none => .error .panicked
    let parent ← inode_wrapper info state parentNid
    let entries ← walk_children_inodes info parent state 0
    match entries.find? (fun e => e.2 == cur_ino) with
    | some e => .ok { w with name := some e.1 }
    | none => .error .panicked

/-- `DirectSuperBlockV6::get_extended_inode`. -/
def get_extended_inode (info : DirectCachedInfo) (state : DirectMappingState)
    (ino_q : Nat) : Except RafsErr OndiskInodeWrapper :=
  if ino_q = state.meta.root_nid then
    inode_wrapper_with_info info state ino_q ino_q [47]
  else do
    let w ← inode_wrapper info state ino_q
    let inode ← diskInodeAt state w.offset
    if is_dir inode then do
      let w ← get_parent info w state
      let w ← get_name info w state
      .ok w
    else .error .notFound

/-- The descriptor sequence of a list of I/O vectors, in emission
order. -/
def flattenVecs (vecs : List BlobIoVec) : List BlobIoDesc :=
  (vecs.map BlobIoVec.bi_vec).flatten

/-! ## Well-formed inline xattr bodies (for the xattr round trip) -/

/-- One inline xattr record as laid out on disk: a prefix code, the
name suffix bytes, and the value bytes. -/
structure XRecord where
  name_index : Nat
  suffix : List Nat
  value : List Nat
deriving DecidableEq, Repr

/-- The namespace prefix of a record (empty when the code is bad;
well-formed bodies only use good codes). -/
def nsbytes (r : XRecord) : List Nat :=
  match recover_namespace r.name_index with
  | .ok ns => ns
  | .error _ => []

/-- The full xattr name: namespace prefix ++ suffix. -/
def fullName (r : XRecord) : List Nat := nsbytes r ++ r.suffix

/-- The on-disk `RafsV6XattrEntry` describing a record. -/
def entOf (r : XRecord) : RafsV6XattrEntry :=
  { name_len := r.suffix.length, name_index := r.name_index, value_size := r.value.length }

/-- The aligned on-disk footprint of a record: the `s` both xattr
loops skip by. -/
def xrec_s (r : XRecord) : Nat :=
  round_up (r.suffix.length + r.value.length + sizeof_xattr_entry) sizeof_xattr_entry

/-- The slice at `off` of the record's length is exactly `l`. -/
def sliceIs (m : FileMapState) (off : Nat) (l : List Nat) : Prop :=
  m.get_slice off l.length = .ok l

/-- A well-formed inline xattr body: starting at `off` with `rem`
declared bytes, the records `rs` are laid out back to back, each with
a readable entry header, its name suffix and value bytes in place, a
known namespace code, and footprints summing exactly to `rem`. -/
def XBody (m : FileMapState) : Nat → Nat → List XRecord → Prop
  | _off, rem, [] => rem = 0
  | off, rem, r :: rs =>
    0 < rem ∧
    m.get_xattr_entry off = .ok (entOf r) ∧
    sliceIs m (off + sizeof_xattr_entry) r.suffix ∧
    sliceIs m (off + sizeof_xattr_entry + r.suffix.length) r.value ∧
    recover_namespace r.name_index = .ok (nsbytes r) ∧
    xrec_s r ≤ rem ∧
    XBody m (off + xrec_s r) (rem - xrec_s r) rs

/-! ## Concrete bootstrap instances used by witnesses and counterexamples -/

/-- Directory inode: compact, plain layout, 40-byte directory content
in data block 1, nlink 2. -/
def demoInode0 : RafsV6Inode :=
  { format := 0, mode := 0x4000, size := 40, union := 1, nlink := 2, xattr_icount := 0 }

/-- Regular-file inode: compact, plain layout, empty, nlink 1. -/
def demoInode1 : RafsV6Inode :=
  { format := 0, mode := 0x8000, size := 0, union := 0, nlink := 1, xattr_icount := 0 }

/-- A small mapped bootstrap: inode slots at offsets 0 and 32, one
directory data block at 4096 holding `.`, `..`, `a` (entry names at
in-block offsets 36, 37, 39; entry `a` is the last entry of the last
block, directory size 40). -/
def demoMap : FileMapState :=
  { size := 8192
    bytes := fun off =>
      if off = 4132 ∨ off = 4133 ∨ off = 4134 then 46
      else if off = 4135 then 97
      else 0
    inodeAt := fun off => if off = 0 then demoInode0 else demoInode1
    direntAt := fun off =>
      if off = 4096 then { e_nid := 0, e_nameoff := 36, e_file_type := 2 }
      else if off = 4108 then { e_nid := 0, e_nameoff := 37, e_file_type := 2 }
      else if off = 4120 then { e_nid := 1, e_nameoff := 39, e_file_type := 1 }
      else default
    xattrAt := fun _ => default
    chunkAddrAt := fun _ => default }

def demoMeta : RafsSuperMeta :=
  { meta_blkaddr := 0, root_nid := 0, chunk_size := 1024, blob_table_offset := 4096,
    blob_table_size := 4096, chunk_table_offset := 0, chunk_table_size := 0,
    is_chunk_dict := false }

def demoState : DirectMappingState :=
  { meta := demoMeta, blob_table := [{ blob_index := 0 }], map := demoMap }

def demoInfo : DirectCachedInfo := { meta_offset := 0, root_ino := 0, chunk_size := 1024 }

/-- The handle `inode_wrapper` materializes for nid 0. -/
def demoW0 : OndiskInodeWrapper :=
  { offset := 0, blocks_count := 1, parent_inode := none, name := none }

/-- The handle `inode_wrapper` materializes for nid 1. -/
def demoW1 : OndiskInodeWrapper :=
  { offset := 32, blocks_count := 0, parent_inode := none, name := none }

/-- Malformed directory inode for the child-count underflow: its one
data block holds a single dirent (`e_nameoff = 12`, so one entry). -/
def demoInodeM : RafsV6Inode :=
  { format := 0, mode := 0x4000, size := 40, union := 1, nlink := 2, xattr_icount := 0 }

def demoMapM : FileMapState :=
  { size := 8192
    bytes := fun _ => 0
    inodeAt := fun _ => demoInodeM
    direntAt := fun _ => { e_nid := 0, e_nameoff := 12, e_file_type := 2 }
    xattrAt := fun _ => default
    chunkAddrAt := fun _ => default }

def demoStateM : DirectMappingState :=
  { meta := demoMeta, blob_table := [], map := demoMapM }

def demoWM : OndiskInodeWrapper :=
  { offset := 0, blocks_count := 1, parent_inode := none, name := none }

/-- Inode with one inline xattr: `xattr_icount = 3`, so the body
declares `(3 - 1) * 4 = 8` bytes — exactly one record of footprint
`round_up(4 + 3 + 1, 4) = 8` (`trusted.foo` = `[1]`). -/
def demoInodeX : RafsV6Inode :=
  { format := 0, mode := 0x8000, size := 0, union := 0, nlink := 1, xattr_icount := 3 }

/-- The xattr record of the demo xattr inode. -/
def demoXRec : XRecord :=
  { name_index := 3, suffix := [102, 111, 111], value := [1] }

/-- Map for the xattr demo: inode at offset 0 (compact, 32 bytes),
xattr header at 32..44, entry at 44, name `foo` at 48..51, value at
51. -/
def demoMapX : FileMapState :=
  { size := 8192
    bytes := fun off =>
      if off = 48 then 102
      else if off = 49 ∨ off = 50 then 111
      else if off = 51 then 1
      else 0
    inodeAt := fun _ => demoInodeX
    direntAt := fun _ => default
    xattrAt := fun off =>
      if off = 44 then { name_len := 3, name_index := 3, value_size := 1 } else default
    chunkAddrAt := fun _ => default }

def demoStateX : DirectMappingState :=
  { meta := demoMeta, blob_table := [], map := demoMapX }

def demoWX : OndiskInodeWrapper :=
  { offset := 0, blocks_count := 0, parent_inode := none, name := none }

/-- The dirents of the demo directory block, by entry index. -/
def demoDe : Nat → Nat → RafsV6Dirent := fun _ j =>
  if j = 0 then { e_nid := 0, e_nameoff := 36, e_file_type := 2 }
  else if j = 1 then { e_nid := 0, e_nameoff := 37, e_file_type := 2 }
  else { e_nid := 1, e_nameoff := 39, e_file_type := 1 }

/-- The entry names of the demo directory block, by entry index. -/
def demoN : Nat → Nat → List Nat := fun _ j =>
  if j = 0 then [46] else if j = 1 then [46, 46] else [97]

/-- The child handles of the demo directory entries. -/
def demoCw : Nat → Nat → OndiskInodeWrapper := fun _ j =>
  if j = 2 then demoW1 else demoW0

/-- Chunk-based regular file: layout 4 (`format = 4 << 1`), 5000
bytes, 5 chunk addresses of 8 bytes at offset 32. -/
def demoInodeC : RafsV6Inode :=
  { format := 8, mode := 0x8000, size := 5000, union := 0, nlink := 1, xattr_icount := 0 }

def demoMapC : FileMapState :=
  { size := 8192
    bytes := fun _ => 0
    inodeAt := fun _ => demoInodeC
    direntAt := fun _ => default
    xattrAt := fun _ => default
    chunkAddrAt := fun off =>
      if off = 48 ∨ off = 56 then { blob_index := 1, blob_ci_index := 0, block_addr := 0 }
      else { blob_index := 0, blob_ci_index := 0, block_addr := 0 } }

def demoStateC : DirectMappingState :=
  { meta := demoMeta, blob_table := [{ blob_index := 0 }, { blob_index := 1 }],
    map := demoMapC }

def demoInfoC : DirectCachedInfo := { meta_offset := 0, root_ino := 0, chunk_size := 1024 }

def demoWC : OndiskInodeWrapper :=
  { offset := 0, blocks_count := 2, parent_inode := none, name := none }

/-- A blob device whose chunk factory always succeeds. -/
def demoDeviceC : BlobDevice := { create_io_chunk := fun _ _ => some 7 }

/-- Chunk-based regular file of 4 GiB (`2^32` bytes): with a 256 MiB
chunk size it has 16 on-inode chunk addresses. -/
def demoInodeBig : RafsV6Inode :=
  { format := 8, mode := 0x8000, size := 4294967296, union := 0, nlink := 1,
    xattr_icount := 0 }

def demoMapBig : FileMapState :=
  { size := 8192
    bytes := fun _ => 0
    inodeAt := fun _ => demoInodeBig
    direntAt := fun _ => default
    xattrAt := fun _ => default
    chunkAddrAt := fun _ => { blob_index := 0, blob_ci_index := 0, block_addr := 0 } }

def demoStateBig : DirectMappingState :=
  { meta := demoMeta, blob_table := [{ blob_index := 0 }], map := demoMapBig }

def demoInfoBig : DirectCachedInfo :=
  { meta_offset := 0, root_ino := 0, chunk_size := 268435456 }

def demoWBig : OndiskInodeWrapper :=
  { offset := 0, blocks_count := 1048576, parent_inode := none, name := none }

/-- The vectors `alloc_bio_vecs` emits for the window
`[100, 100 + 3000)` of the demo chunk file: blob 0 gets the 924-byte
head fragment and one full chunk, blob 1 gets one full chunk and the
28-byte tail. -/
def demoVecsC : List BlobIoVec :=
  [ { blob := { blob_index := 0 }
      bi_vec :=
        [ { blob := { blob_index := 0 }, chunkinfo := 7, c_offset := 100, c_len := 924,
            user_rq := true },
          { blob := { blob_index := 0 }, chunkinfo := 7, c_offset := 0, c_len := 1024,
            user_rq := true } ] },
    { blob := { blob_index := 1 }
      bi_vec :=
        [ { blob := { blob_index := 1 }, chunkinfo := 7, c_offset := 0, c_len := 1024,
            user_rq := true },
          { blob := { blob_index := 1 }, chunkinfo := 7, c_offset := 0, c_len := 28,
            user_rq := true } ] } ]

/-! ## Small rewriting lemmas for `Except` -/

instance {α β : Type} [DecidableEq α] [DecidableEq β] : DecidableEq (Except α β) :=
  fun a b =>
    match a, b with
    | .ok x, .ok y =>
      if h : x = y then isTrue (by rw [h])
      else isFalse (by intro hc; cases hc; exact h rfl)
    | .error x, .error y =>
      if h : x = y then isTrue (by rw [h])
      else isFalse (by intro hc; cases hc; exact h rfl)
    | .ok _, .error _ => isFalse (by intro hc; cases hc)
    | .error _, .ok _ => isFalse (by intro hc; cases hc)

@[simp] theorem ebind_ok {α β : Type} (a : α) (f : α → Except RafsErr β) :
    (Except.ok a >>= f) = f a := rfl

@[simp] theorem ebind_err {α β : Type} (e : RafsErr) (f : α → Except RafsErr β) :
    ((Except.error e : Except RafsErr α) >>= f) = .error e := rfl

@[simp] theorem emap_ok {α β : Type} (a : α) (f : α → β) :
    (Except.ok a : Except RafsErr α).map f = .ok (f a) := rfl

@[simp] theorem emap_err {α β : Type} (e : RafsErr) (f : α → β) :
    (Except.error e : Except RafsErr α).map f = .error e := rfl

/-! ## Byte-string order lemmas -/

theorem bytesCmp_eq_iff : ∀ a b : List Nat, bytesCmp a b = .eq ↔ a = b := by
  intro a
  induction a with
  | nil => intro b; cases b <;> simp [bytesCmp]
  | cons x xs ih =>
    intro b
    cases b with
    | nil => simp [bytesCmp]
    | cons y ys =>
      unfold bytesCmp
      by_cases h1 : x < y
      · simp [h1]
        omega
      · by_cases h2 : y < x
        · simp [h1, h2]
          omega
        · have hxy : x = y := by omega
          simp [h1, h2, hxy, ih ys]

theorem bytesCmp_gt_iff : ∀ a b : List Nat, bytesCmp a b = .gt ↔ bytesCmp b a = .lt := by
  intro a
  induction a with
  | nil => intro b; cases b <;> simp [bytesCmp]
  | cons x xs ih =>
    intro b
    cases b with
    | nil => simp [bytesCmp]
    | cons y ys =>
      unfold bytesCmp
      by_cases h1 : x < y
      · simp [h1, show ¬ y < x by omega]
      · by_cases h2 : y < x
        · simp [h1, h2]
        · simp [h1, h2, ih ys]

theorem bytesLt_trans : ∀ a b c : List Nat, bytesLt a b → bytesLt b c → bytesLt a c := by
  intro a
  induction a with
  | nil =>
    intro b c hab hbc
    cases b with
    | nil => exact hbc
    | cons y ys =>
      cases c with
      | nil => simp [bytesLt, bytesCmp] at hbc
      | cons z zs => simp [bytesLt, bytesCmp]
  | cons x xs ih =>
    intro b c hab hbc
    cases b with
    | nil => simp [bytesLt, bytesCmp] at hab
    | cons y ys =>
      cases c with
      | nil => simp [bytesLt, bytesCmp] at hbc
      | cons z zs =>
        simp only [bytesLt, bytesCmp] at hab hbc ⊢
        by_cases h1 : x < y
        · by_cases h2 : y < z
          · simp [show x < z by omega]
          · by_cases h3 : z < y
            · simp [h2, h3] at hbc
            · have : y = z := by omega
              subst this
              simp [h1]
        · by_cases h2 : y < x
          · simp [h1, h2] at hab
          · have hxy : x = y := by omega
            subst hxy
            by_cases h2 : x < z
            · simp [h2]
            · by_cases h3 : z < x
              · simp [show ¬ x < z by omega, h3] at hbc
              · have : x = z := by omega
                subst this
                simp [h1, h2] at hab hbc ⊢
                exact ih ys zs hab hbc

theorem bytesLt_irrefl : ∀ a : List Nat, ¬ bytesLt a a := by
  intro a
  induction a with
  | nil => simp [bytesLt, bytesCmp]
  | cons x xs ih => simpa [bytesLt, bytesCmp] using ih

theorem bytesLt_asymm {a b : List Nat} (h : bytesLt a b) : ¬ bytesLt b a :=
  fun h' => bytesLt_irrefl a (bytesLt_trans a b a h h')

theorem bytesLt_ne {a b : List Nat} (h : bytesLt a b) : a ≠ b := by
  intro he
  subst he
  exact bytesLt_irrefl a h

theorem bytesLe_iff (a b : List Nat) : bytesLe a b ↔ (bytesLt a b ∨ a = b) := by
  unfold bytesLe
  constructor
  · intro h
    cases hc : bytesCmp a b with
    | lt => exact Or.inl hc
    | eq => exact Or.inr ((bytesCmp_eq_iff a b).mp hc)
    | gt => exact absurd ((bytesCmp_gt_iff a b).mp hc) h
  · intro h hba
    rcases h with h | h
    · exact bytesLt_asymm h hba
    · subst h
      exact bytesLt_irrefl a hba

/-! ## Wrapper ino helper -/

theorem wrapper_ino_eq (info : DirectCachedInfo) (state : DirectMappingState)
    (nid : Nat) (w : OndiskInodeWrapper) (h : inode_wrapper info state nid = .ok w) :
    w.ino info = nid := by
  unfold inode_wrapper OndiskInodeWrapper.new at h
  cases hd : diskInodeAt state (info.meta_offset + nid * EROFS_INODE_SLOT_SIZE) with
  | error e => rw [hd] at h; simp [Except.map] at h
  | ok i =>
    rw [hd] at h
    simp only [Except.map, Except.ok.injEq] at h
    subst h
    unfold OndiskInodeWrapper.ino
    simp only
    rw [Nat.add_sub_cancel_left]
    exact Nat.mul_div_cancel nid (by norm_num [EROFS_INODE_SLOT_SIZE])

/-! ## C7 — nid/offset round trip -/

/-- C7: for every valid nid `n`, the handle materialized by
`inode_wrapper` at `meta_offset + n * EROFS_INODE_SLOT_SIZE` satisfies
`ino() = n`: the nid-to-offset computation and the `ino()` accessor
are mutual inverses. -/
theorem ino_offset_round_trip (info : DirectCachedInfo) (state : DirectMappingState)
    (nid : Nat) (w : OndiskInodeWrapper) (h : inode_wrapper info state nid = .ok w) :
    w.ino info = nid :=
  wrapper_ino_eq info state nid w h

/-- C7 witness: concrete round trip at nid 1 of the demo bootstrap. -/
theorem ino_offset_round_trip_witness :
    inode_wrapper demoInfo demoState 1 = .ok demoW1 ∧
      OndiskInodeWrapper.ino demoInfo demoW1 = 1 :=
  ⟨rfl, ino_offset_round_trip demoInfo demoState 1 demoW1 rfl⟩

/-! ## C9 — hot-swap atomicity -/

/-- C9: `update_state` is atomic with respect to failure: whenever any
of its validation/parse/mmap steps fails, the published state tuple is
unchanged; on success the published tuple is exactly the one fully
built from the inputs, with the metadata carried over. -/
theorem update_state_atomic (published : DirectMappingState) (r : UpdateInput) :
    (∀ e, (update_state published r).2 = .error e →
      (update_state published r).1 = published) ∧
    (∀ u, (update_state published r).2 = .ok u →
      ∃ bt m, r.blob_table_parse = .ok bt ∧ r.file_map = .ok m ∧
        (update_state published r).1 =
          { meta := published.meta, blob_table := bt, map := m }) := by
  have hinv : ∀ s, build_state published r = .ok s →
      ∃ bt m, r.blob_table_parse = .ok bt ∧ r.file_map = .ok m ∧
        s = { meta := published.meta, blob_table := bt, map := m } := by
    intro s hb
    unfold build_state at hb
    by_cases hlen : r.file_len < EROFS_BLOCK_SIZE
    · simp [hlen] at hb
    · simp only [hlen, if_false] at hb
      cases hmd : MetaRange.new EROFS_BLOCK_SIZE (r.file_len - EROFS_BLOCK_SIZE) true with
      | error e' => rw [hmd] at hb; simp at hb
      | ok md =>
        rw [hmd] at hb
        cases hbt : MetaRange.new published.meta.blob_table_offset
            published.meta.blob_table_size false with
        | error e' => rw [hbt] at hb; simp at hb
        | ok btr =>
          rw [hbt] at hb
          simp only [ebind_ok] at hb
          by_cases hsub : MetaRange.is_subrange_of btr md
          · rw [if_neg (by simp [hsub])] at hb
            cases hp : r.blob_table_parse with
            | error e' => rw [hp] at hb; simp at hb
            | ok bt =>
              rw [hp] at hb
              cases hm : r.file_map with
              | error e' => rw [hm] at hb; simp at hb
              | ok m =>
                rw [hm] at hb
                simp only [ebind_ok, Except.ok.injEq] at hb
                exact ⟨bt, m, rfl, rfl, hb.symm⟩
          · rw [if_pos (by simpa using hsub)] at hb; cases hb
  constructor
  · intro e he
    cases hb : build_state published r with
    | ok s => simp [update_state, hb] at he
    | error e' => simp [update_state, hb]
  · intro u hu
    cases hb : build_state published r with
    | error e' => simp [update_state, hb] at hu
    | ok s =>
      obtain ⟨bt, m, hp, hm, hs⟩ := hinv s hb
      exact ⟨bt, m, hp, hm, by simp [update_state, hb, hs]⟩

/-- C9 witness: a failing update (file shorter than one block) leaves
the demo state published; hypotheses of the theorem discharged at
a concrete input. -/
theorem update_state_atomic_witness :
    (update_state demoState
        { file_len := 0, blob_table_parse := .ok [], file_map := .ok demoMap }).1 =
      demoState :=
  (update_state_atomic demoState
      { file_len := 0, blob_table_parse := .ok [], file_map := .ok demoMap }).1
    .panicked rfl

/-! ## C10 — get_extended_inode succeeds only for root and directories -/

/-- C10: `get_extended_inode` succeeds for the root nid (returning a
handle that is its own parent, named "/"), and fails with NotFound for
every other valid nid whose inode is not a directory — even though
`get_inode` succeeds on the same nid. -/
theorem get_extended_inode_root_and_nondir (info : DirectCachedInfo)
    (state : DirectMappingState) (ino_q : Nat) (i : RafsV6Inode) (w : OndiskInodeWrapper)
    (hw : inode_wrapper info state ino_q = .ok w)
    (hi : diskInodeAt state w.offset = .ok i) :
    (ino_q = state.meta.root_nid →
      ∃ v, get_extended_inode info state ino_q = .ok v ∧
        v.parent_inode = some ino_q ∧ v.name = some [47]) ∧
    (ino_q ≠ state.meta.root_nid → is_dir i = false →
      get_extended_inode info state ino_q = .error .notFound ∧
      get_inode info state ino_q = .ok w) := by
  constructor
  · intro hroot
    refine ⟨{ w with parent_inode := some ino_q, name := some [47] }, ?_, rfl, rfl⟩
    unfold get_extended_inode
    rw [if_pos hroot]
    unfold inode_wrapper_with_info
    rw [hw]
    rfl
  · intro hroot hdir
    refine ⟨?_, hw⟩
    unfold get_extended_inode
    rw [if_neg hroot]
    simp only [hw, ebind_ok, hi, hdir]
    simp

/-- C10 witness: nid 1 of the demo bootstrap is a regular file:
`get_extended_inode` rejects it with NotFound while `get_inode`
returns a handle. -/
theorem get_extended_inode_root_and_nondir_witness :
    get_extended_inode demoInfo demoState 1 = .error .notFound ∧
      get_inode demoInfo demoState 1 = .ok demoW1 :=
  (get_extended_inode_root_and_nondir demoInfo demoState 1 demoInode1 demoW1
      rfl rfl).2 (by decide) rfl

/-! ## C5 — validate panics on a nameless handle -/

/-- C5 (code bug): `validate` on a handle constructed without a cached
name (as `get_inode` builds them) aborts: once the ino/nlink tests
pass it evaluates `get_name_size()`, whose `name()` accessor asserts
that a name is cached.  Evaluated at a concrete valid regular-file
inode obtained through `get_inode`. -/
theorem validate_nameless_handle_aborts :
    get_inode demoInfo demoState 1 = .ok demoW1 ∧
      validate demoInfo demoW1 demoState = .error .panicked := by
  constructor <;> rfl

/-! ## C3 — binary-search index underflow -/

/-- C3 (code bug): looking up a name that orders before the first
entry of the first block makes `find_target_block` reach
`last = pivot - 1` with `pivot = 0`, a usize underflow (Rust panic
under debug assertions), and `get_child_by_name` aborts the same way
instead of returning a clean NotFound.  Concrete input: the demo
directory (entries `.`, `..`, `a`) and the name `"!"` (byte 0x21). -/
theorem find_target_block_underflow_aborts :
    find_target_block demoW0 demoState [33] = .error .panicked ∧
      get_child_by_name demoInfo demoW0 demoState [33] = .error .panicked := by
  constructor <;> rfl

/-! ## C6 — get_child_count wraps instead of rejecting -/

/-- C6 counterexample: on a malformed directory whose single block
holds one dirent, `get_child_count` does not fail: the u32
`child_cnt - 2` wraps and it returns `2^32 - 1`. -/
theorem get_child_count_malformed_wraps :
    get_child_count demoInfo demoWM demoStateM = .ok 4294967295 ∧
      ∀ e, get_child_count demoInfo demoWM demoStateM ≠ .error e := by
  refine ⟨rfl, fun e h => ?_⟩
  rw [show get_child_count demoInfo demoWM demoStateM = .ok 4294967295 from rfl] at h
  cases h

/-- C6 (amended): `get_child_count` on a directory returns the sum of
per-block dirent counts minus 2 in wrapping u32 arithmetic — for a
malformed directory with fewer than two dirents it wraps rather than
failing — and for non-directories it returns
`ceil(size / chunk_size)` (mod `2^32`). -/
theorem get_child_count_formula (info : DirectCachedInfo) (w : OndiskInodeWrapper)
    (state : DirectMappingState) (i : RafsV6Inode)
    (hi : diskInodeAt state w.offset = .ok i) :
    (is_dir i = false →
      get_child_count info w state = .ok (div_round_up i.size info.chunk_size % 2 ^ 32)) ∧
    (is_dir i = true → ∀ n,
      get_child_count_blocks w state i
          (List.range (div_round_up i.size EROFS_BLOCK_SIZE)) = .ok n →
      get_child_count info w state = .ok ((n % 2 ^ 32 + 2 ^ 32 - 2) % 2 ^ 32)) := by
  constructor
  · intro hdir
    unfold get_child_count
    simp [hi, hdir]
  · intro hdir n hn
    unfold get_child_count
    simp [hi, hdir, hn]

/-- C6 witness: the wrap evaluated through the amended theorem at the
malformed demo directory. -/
theorem get_child_count_formula_witness :
    get_child_count demoInfo demoWM demoStateM = .ok ((1 % 2 ^ 32 + 2 ^ 32 - 2) % 2 ^ 32) :=
  (get_child_count_formula demoInfo demoWM demoStateM demoInodeM rfl).2 rfl 1 rfl

/-! ## C4 — entry-name length rule -/

theorem takeNonNul_range_map :
    ∀ (n : Nat) (f : Nat → Nat) (c : Nat), c ≤ n → (∀ t < c, f t ≠ 0) →
      (c < n → f c = 0) →
      takeNonNul ((List.range n).map f) = (List.range c).map f := by
  intro n
  induction n with
  | zero =>
    intro f c hc _ _
    interval_cases c
    rfl
  | succ n ih =>
    intro f c hc h1 h2
    rw [List.range_succ_eq_map, List.map_cons, List.map_map]
    cases c with
    | zero =>
      have hf0 : f 0 = 0 := h2 (Nat.succ_pos n)
      simp [takeNonNul, hf0]
    | succ c' =>
      have hf0 : (f 0 != 0) = true := by
        simp only [bne_iff_ne, ne_eq]
        exact h1 0 (Nat.succ_pos c')
      rw [show takeNonNul (f 0 :: (List.range n).map (f ∘ Nat.succ)) =
            f 0 :: takeNonNul ((List.range n).map (f ∘ Nat.succ)) from by
          simp [takeNonNul, List.takeWhile_cons, hf0]]
      rw [List.range_succ_eq_map, List.map_cons, List.map_map]
      congr 1
      rw [show (f ∘ Nat.succ) = (fun t => f (t + 1)) from by
        funext t; simp [Nat.succ_eq_add_one]]
      exact ih (fun t => f (t + 1)) c' (by omega)
        (fun t ht => h1 (t + 1) (by omega)) (fun hlt => h2 (by omega))

/-- C4: for a well-formed directory block (tightly packed dirent
header array, monotone name offsets, names inside the block limit),
`entry_name` yields, for every non-last entry `j`, exactly the bytes
from `dirent[j].name_offset` to `dirent[j+1].name_offset`; for the
last entry it yields the bytes from its name offset up to the block
limit — `size mod 4096` when this is the last block of the directory,
4096 otherwise — with trailing NUL padding trimmed (`k` marks the end
of the NUL-free name). -/
theorem entry_name_formula (w : OndiskInodeWrapper) (state : DirectMappingState)
    (inode : RafsV6Inode) (block_index max_entries off limit k : Nat)
    (de : Nat → RafsV6Dirent)
    (hmax : 0 < max_entries)
    (hoff : data_block_offset w inode block_index = .ok off)
    (hde : ∀ j < max_entries, get_entry w state inode block_index j = .ok (de j))
    (hmono : ∀ j, j + 1 < max_entries → (de j).e_nameoff ≤ (de (j + 1)).e_nameoff)
    (hlimit : limit = if div_round_up inode.size EROFS_BLOCK_SIZE = block_index + 1 then
        inode.size % EROFS_BLOCK_SIZE else EROFS_BLOCK_SIZE)
    (hbound : ∀ j < max_entries, (de j).e_nameoff ≤ limit)
    (hsize : off + limit ≤ state.map.size)
    (hhead : (de 0).e_nameoff = sizeof_dirent * max_entries)
    (hk1 : (de (max_entries - 1)).e_nameoff ≤ k) (hk2 : k ≤ limit)
    (hnz : ∀ t, (de (max_entries - 1)).e_nameoff ≤ t → t < k →
      state.map.bytes (off + t) ≠ 0)
    (hz : k < limit → state.map.bytes (off + k) = 0) :
    (∀ j, j + 1 < max_entries →
      entry_name w state inode block_index j max_entries =
        .ok ((List.range ((de (j + 1)).e_nameoff - (de j).e_nameoff)).map
          fun t => state.map.bytes (off + (de j).e_nameoff + t))) ∧
    entry_name w state inode block_index (max_entries - 1) max_entries =
      .ok ((List.range (k - (de (max_entries - 1)).e_nameoff)).map
        fun t => state.map.bytes (off + (de (max_entries - 1)).e_nameoff + t)) := by
  have mono_le : ∀ b, b < max_entries → ∀ a, a ≤ b →
      (de a).e_nameoff ≤ (de b).e_nameoff := by
    intro b
    induction b with
    | zero => intro _ a ha; interval_cases a; exact le_refl _
    | succ n ihb =>
      intro hb a ha
      rcases Nat.lt_or_ge a (n + 1) with h | h
      · exact le_trans (ihb (by omega) a (by omega)) (hmono n hb)
      · have : a = n + 1 := by omega
        subst this; exact le_refl _
  constructor
  · intro j hj
    unfold entry_name
    rw [hoff]
    simp only [ebind_ok]
    rw [hde j (by omega)]
    simp only [ebind_ok]
    rw [if_pos (show j < max_entries - 1 by omega)]
    rw [hde (j + 1) hj]
    simp only [ebind_ok]
    rw [if_pos (hmono j hj)]
    unfold FileMapState.get_slice
    rw [if_pos (by have hm := hmono j hj; have hb := hbound (j + 1) hj; omega)]
  · unfold entry_name
    rw [hoff]
    simp only [ebind_ok]
    rw [hde (max_entries - 1) (by omega)]
    simp only [ebind_ok]
    rw [if_neg (lt_irrefl _)]
    rw [hde 0 hmax]
    simp only [ebind_ok]
    have hle0 : (de 0).e_nameoff ≤ (de (max_entries - 1)).e_nameoff :=
      mono_le (max_entries - 1) (by omega) 0 (by omega)
    rw [if_neg (by omega)]
    have hs : (de (max_entries - 1)).e_nameoff - (de 0).e_nameoff +
        sizeof_dirent * max_entries = (de (max_entries - 1)).e_nameoff := by omega
    rw [hs]
    have hlim : (de (max_entries - 1)).e_nameoff ≤ limit := hbound _ (by omega)
    rw [if_neg (by omega)]
    unfold FileMapState.get_slice
    rw [if_pos (by omega)]
    simp only [ebind_ok]
    rw [← hlimit]
    congr 1
    exact takeNonNul_range_map (limit - (de (max_entries - 1)).e_nameoff)
      (fun t => state.map.bytes (off + (de (max_entries - 1)).e_nameoff + t))
      (k - (de (max_entries - 1)).e_nameoff) (by omega)
      (fun t ht => by
        have := hnz ((de (max_entries - 1)).e_nameoff + t) (by omega) (by omega)
        simpa [Nat.add_assoc] using this)
      (fun hlt => by
        have hzk := hz (by omega)
        have harr : off + (de (max_entries - 1)).e_nameoff +
            (k - (de (max_entries - 1)).e_nameoff) = off + k := by omega
        show state.map.bytes (off + (de (max_entries - 1)).e_nameoff +
          (k - (de (max_entries - 1)).e_nameoff)) = 0
        rw [harr]
        exact hzk)

/-- C4 witness: the demo block (`.`, `..`, `a`; directory size 40, so
the last-block limit is `40 mod 4096`): entry 1 gets the two bytes
between offsets 37 and 39, and the last entry gets the single byte
name `a`. -/
theorem entry_name_formula_witness :
    entry_name demoW0 demoState demoInode0 0 1 3 = .ok [46, 46] ∧
      entry_name demoW0 demoState demoInode0 0 2 3 = .ok [97] := by
  have h := entry_name_formula demoW0 demoState demoInode0 0 3 4096 40 40
    (fun j => if j = 0 then { e_nid := 0, e_nameoff := 36, e_file_type := 2 }
      else if j = 1 then { e_nid := 0, e_nameoff := 37, e_file_type := 2 }
      else { e_nid := 1, e_nameoff := 39, e_file_type := 1 })
    (by norm_num) rfl
    (by decide)
    (by
      intro j hj
      rcases j with _ | _ | j
      · decide
      · decide
      · exact absurd hj (by omega))
    (by decide)
    (by decide)
    (by decide)
    (by decide)
    (by decide) (by decide)
    (by
      intro t ht1 ht2
      norm_num at ht1 ht2
      interval_cases t
      decide)
    (by intro hcon; exact absurd hcon (by norm_num))
  exact ⟨(h.1 1 (by norm_num)).trans (by rfl), h.2.trans (by rfl)⟩

/-! ## C8 — xattr round trip -/

@[simp] theorem entOf_name_len (r : XRecord) : (entOf r).name_len = r.suffix.length := rfl
@[simp] theorem entOf_name_index (r : XRecord) : (entOf r).name_index = r.name_index := rfl
@[simp] theorem entOf_value_size (r : XRecord) : (entOf r).value_size = r.value.length := rfl

theorem xrec_s_pos (r : XRecord) : 1 ≤ xrec_s r := by
  unfold xrec_s round_up
  rw [if_neg (by simp [sizeof_xattr_entry])]
  calc 1 ≤ 1 * sizeof_xattr_entry := by norm_num [sizeof_xattr_entry]
    _ ≤ ((r.suffix.length + r.value.length + sizeof_xattr_entry - 1) / sizeof_xattr_entry + 1)
        * sizeof_xattr_entry := Nat.mul_le_mul_right _ (Nat.le_add_left 1 _)

theorem get_xattrs_loop_spec (state : DirectMappingState) :
    ∀ (rs : List XRecord) (off rem fuel : Nat), XBody state.map off rem rs →
      rem + 1 ≤ fuel →
      get_xattrs_loop state off rem fuel = .ok (rs.map fullName) := by
  intro rs
  induction rs with
  | nil =>
    intro off rem fuel hb hf
    unfold XBody at hb
    subst hb
    cases fuel with
    | zero => omega
    | succ f => unfold get_xattrs_loop; simp
  | cons r rs ih =>
    intro off rem fuel hb hf
    unfold XBody at hb
    obtain ⟨hrem, he, hsuf, hval, hns, hs, hrest⟩ := hb
    cases fuel with
    | zero => omega
    | succ f =>
      have hpos := xrec_s_pos r
      unfold get_xattrs_loop
      rw [if_neg (by omega)]
      rw [he]
      simp only [ebind_ok, entOf_name_len, entOf_name_index, entOf_value_size]
      rw [show state.map.get_slice (off + sizeof_xattr_entry) r.suffix.length =
        .ok r.suffix from hsuf]
      simp only [ebind_ok]
      rw [hns]
      simp only [ebind_ok]
      rw [show round_up (r.suffix.length + r.value.length + sizeof_xattr_entry)
        sizeof_xattr_entry = xrec_s r from rfl]
      rw [if_neg (by omega)]
      rw [ih (off + xrec_s r) (rem - xrec_s r) f hrest (by omega)]
      simp [fullName]

theorem get_xattr_loop_finds (state : DirectMappingState) :
    ∀ (rs : List XRecord) (off rem fuel : Nat) (r₀ : XRecord),
      XBody state.map off rem rs → rem + 1 ≤ fuel → r₀ ∈ rs →
      (rs.map fullName).Nodup →
      get_xattr_loop state (fullName r₀) off rem fuel = .ok (some r₀.value) := by
  intro rs
  induction rs with
  | nil => intro off rem fuel r₀ _ _ hmem _; cases hmem
  | cons r rs ih =>
    intro off rem fuel r₀ hb hf hmem hnd
    unfold XBody at hb
    obtain ⟨hrem, he, hsuf, hval, hns, hs, hrest⟩ := hb
    cases fuel with
    | zero => omega
    | succ f =>
      have hpos := xrec_s_pos r
      unfold get_xattr_loop
      rw [if_neg (by omega)]
      rw [he]
      simp only [ebind_ok, entOf_name_len, entOf_name_index, entOf_value_size]
      rw [hns]
      simp only [ebind_ok]
      rw [show state.map.get_slice (off + sizeof_xattr_entry) r.suffix.length =
        .ok r.suffix from hsuf]
      simp only [ebind_ok]
      rcases List.mem_cons.mp hmem with heq | hmem'
      · subst heq
        rw [if_pos (show nsbytes r₀ ++ r₀.suffix = fullName r₀ from rfl)]
        rw [show state.map.get_slice (off + sizeof_xattr_entry + r₀.suffix.length)
          r₀.value.length = .ok r₀.value from hval]
        simp only [ebind_ok]
      · have hnd' : fullName r ∉ rs.map fullName ∧ (rs.map fullName).Nodup := by
          rw [List.map_cons] at hnd
          exact List.nodup_cons.mp hnd
        have hne : nsbytes r ++ r.suffix ≠ fullName r₀ := by
          intro hc
          have h1 : fullName r₀ ∈ rs.map fullName := List.mem_map_of_mem fullName hmem'
          have h2 := hnd'.1
          rw [show fullName r = nsbytes r ++ r.suffix from rfl, hc] at h2
          exact h2 h1
        rw [if_neg hne]
        rw [show round_up (r.suffix.length + r.value.length + sizeof_xattr_entry)
          sizeof_xattr_entry = xrec_s r from rfl]
        rw [if_neg (by omega)]
        exact ih (off + xrec_s r) (rem - xrec_s r) f r₀ hrest (by omega) hmem' hnd'.2

/-- C8: for an inode with a well-formed inline xattr body whose full
names are distinct, `get_xattrs` lists exactly the full names of the
records, and for every listed name `get_xattr` on the same inode
returns `Some` of the record's declared value — non-empty whenever the
record declared a non-zero value size. -/
theorem xattr_round_trip (w : OndiskInodeWrapper) (state : DirectMappingState)
    (inode : RafsV6Inode) (rs : List XRecord)
    (hi : diskInodeAt state w.offset = .ok inode)
    (ht : 0 < inode.xattr_icount)
    (hbody : XBody state.map (w.offset + inode_size inode + sizeof_xattr_header)
      ((inode.xattr_icount - 1) * sizeof_xattr_entry) rs)
    (hnodup : (rs.map fullName).Nodup) :
    get_xattrs w state = .ok (rs.map fullName) ∧
    ∀ r ∈ rs, ∃ v, get_xattr w state (fullName r) = .ok (some v) ∧ v = r.value ∧
      (r.value.length ≠ 0 → v ≠ []) := by
  constructor
  · unfold get_xattrs
    rw [hi]
    simp only [ebind_ok]
    rw [if_neg (by omega)]
    exact get_xattrs_loop_spec state rs _ _ _ hbody (by omega)
  · intro r hr
    refine ⟨r.value, ?_, rfl, fun h hc => h (by simp [hc])⟩
    unfold get_xattr
    rw [hi]
    simp only [ebind_ok]
    rw [if_neg (by omega)]
    exact get_xattr_loop_finds state rs _ _ _ r hbody (by omega) hr hnodup

/-- C8 witness: the demo xattr inode carries one record
`trusted.foo = [1]`; `get_xattrs` lists it and `get_xattr` finds it
with its non-empty one-byte value. -/
theorem xattr_round_trip_witness :
    get_xattrs demoWX demoStateX = .ok [fullName demoXRec] ∧
      get_xattr demoWX demoStateX (fullName demoXRec) = .ok (some [1]) := by
  have h := xattr_round_trip demoWX demoStateX demoInodeX [demoXRec] rfl
    (by decide)
    (by
      unfold XBody
      refine ⟨by decide, rfl, rfl, rfl, rfl, by decide, ?_⟩
      unfold XBody
      decide)
    (by simp)
  refine ⟨by simpa using h.1, ?_⟩
  obtain ⟨v, hv, hveq, _⟩ := h.2 demoXRec (by simp)
  rw [hv, hveq]
  rfl

/-! ## C1 — chunk coverage of alloc_bio_vecs -/

theorem make_chunk_io_fields (state : DirectMappingState) (device : BlobDevice)
    (c : RafsV6InodeChunkAddr) (co cl : Nat) (u : Bool) (d : BlobIoDesc)
    (h : make_chunk_io state device c co cl u = some d) :
    d.c_offset = co ∧ d.c_len = cl := by
  unfold make_chunk_io at h
  split at h
  · cases h
  · obtain ⟨v, _, hvd⟩ := Option.map_eq_some'.mp h
    subst hvd
    exact ⟨rfl, rfl⟩

theorem flattenVecs_append_single (l : List BlobIoVec) (v : BlobIoVec) :
    flattenVecs (l ++ [v]) = flattenVecs l ++ v.bi_vec := by
  simp [flattenVecs]

theorem alloc_loop_spec (state : DirectMappingState) (device : BlobDevice)
    (csz : Nat) (u : Bool) :
    ∀ (chunks : List RafsV6InodeChunkAddr) (left : Nat) (descs : BlobIoVec)
      (vec : List BlobIoVec) (out : List BlobIoVec × BlobIoVec × Nat),
      alloc_loop state device csz u chunks left descs vec = .ok out →
      0 < left →
      descs.bi_vec ≠ [] →
      (∀ d ∈ descs.bi_vec, d.blob.blob_index = descs.blob_index) →
      (∀ v ∈ vec, v.bi_vec ≠ [] ∧ ∀ d ∈ v.bi_vec, d.blob.blob_index = v.blob_index) →
      List.Chain' (fun a b => a.blob_index ≠ b.blob_index) vec →
      (∀ v, vec.getLast? = some v → v.blob_index ≠ descs.blob_index) →
      ∃ ds',
        flattenVecs out.1 ++ out.2.1.bi_vec = (flattenVecs vec ++ descs.bi_vec) ++ ds' ∧
        (∀ d ∈ ds', d.c_offset = 0) ∧
        (ds'.map BlobIoDesc.c_len).sum = left - out.2.2 ∧
        out.2.2 ≤ left ∧
        out.2.1.bi_vec ≠ [] ∧
        (∀ d ∈ out.2.1.bi_vec, d.blob.blob_index = out.2.1.blob_index) ∧
        (∀ v ∈ out.1, v.bi_vec ≠ [] ∧ ∀ d ∈ v.bi_vec, d.blob.blob_index = v.blob_index) ∧
        List.Chain' (fun a b => a.blob_index ≠ b.blob_index) out.1 ∧
        (∀ v, out.1.getLast? = some v → v.blob_index ≠ out.2.1.blob_index) := by
  intro chunks
  induction chunks with
  | nil =>
    intro left descs vec out hok hl hne huni hgood hchain hlast
    unfold alloc_loop at hok
    cases hok
    exact ⟨[], by simp, by simp, by simp, le_refl _, hne, huni, hgood, hchain, hlast⟩
  | cons c cs ih =>
    intro left descs vec out hok hl hne huni hgood hchain hlast
    unfold alloc_loop at hok
    simp only [] at hok
    split at hok
    · cases hok
    · rename_i desc hm
      obtain ⟨hdo, hdl⟩ := make_chunk_io_fields state device c 0 (min csz left) u desc hm
      by_cases hcond : desc.blob.blob_index ≠ descs.blob_index
      · rw [if_pos hcond] at hok
        simp only [] at hok
        -- the open vector is flushed; a fresh one starts with `desc`
        have hstep :
            ∀ out2, out = out2 →
            (flattenVecs (vec ++ [descs]) ++ (((BlobIoVec.new desc.blob).push desc).bi_vec)) =
              (flattenVecs vec ++ descs.bi_vec) ++ [desc] := by
          intro _ _
          rw [flattenVecs_append_single]
          simp [BlobIoVec.push, BlobIoVec.new]
        by_cases hz : left - min csz left = 0
        · rw [if_pos hz] at hok
          cases hok
          dsimp only
          refine ⟨[desc], ?_, ?_, ?_, ?_, ?_, ?_, ?_, ?_, ?_⟩
          · simpa using hstep _ rfl
          · intro d hd; simp at hd; subst hd; exact hdo
          · simp only [List.map_cons, List.map_nil, List.sum_cons, List.sum_nil]
            omega
          · omega
          · simp [BlobIoVec.push]
          · intro d hd
            simp [BlobIoVec.push, BlobIoVec.new] at hd
            subst hd
            rfl
          · intro v hv
            rcases List.mem_append.mp hv with hv | hv
            · exact hgood v hv
            · simp at hv; subst hv; exact ⟨hne, huni⟩
          · rw [List.chain'_append]
            refine ⟨hchain, List.chain'_singleton _, ?_⟩
            intro x hx y hy
            simp at hy; subst hy
            exact hlast x hx
          · intro v hv
            simp only [List.getLast?_append, List.getLast?_singleton] at hv
            simp at hv
            subst hv
            simp only [BlobIoVec.push, BlobIoVec.new, BlobIoVec.blob_index]
            intro hcontra
            exact hcond hcontra.symm
        · rw [if_neg hz] at hok
          have hrec := ih (left - min csz left) ((BlobIoVec.new desc.blob).push desc)
            (vec ++ [descs]) out hok (by omega)
            (by simp [BlobIoVec.push])
            (by
              intro d hd
              simp [BlobIoVec.push, BlobIoVec.new] at hd
              subst hd
              rfl)
            (by
              intro v hv
              rcases List.mem_append.mp hv with hv | hv
              · exact hgood v hv
              · simp at hv; subst hv; exact ⟨hne, huni⟩)
            (by
              rw [List.chain'_append]
              refine ⟨hchain, List.chain'_singleton _, ?_⟩
              intro x hx y hy
              simp at hy; subst hy
              exact hlast x hx)
            (by
              intro v hv
              simp only [List.getLast?_append, List.getLast?_singleton] at hv
              simp at hv
              subst hv
              simp only [BlobIoVec.push, BlobIoVec.new, BlobIoVec.blob_index]
              intro hcontra
              exact hcond hcontra.symm)
          obtain ⟨ds', hflat, hoffs, hsum, hle, h1, h2, h3, h4, h5⟩ := hrec
          refine ⟨desc :: ds', ?_, ?_, ?_, by omega, h1, h2, h3, h4, h5⟩
          · rw [hflat, flattenVecs_append_single]
            simp [BlobIoVec.push, BlobIoVec.new]
          · intro d hd
            rcases List.mem_cons.mp hd with hd | hd
            · subst hd; exact hdo
            · exact hoffs d hd
          · simp only [List.map_cons, List.sum_cons]
            omega
      · rw [if_neg hcond] at hok
        simp only [] at hok
        push_neg at hcond
        by_cases hz : left - min csz left = 0
        · rw [if_pos hz] at hok
          cases hok
          dsimp only
          refine ⟨[desc], ?_, ?_, ?_, ?_, ?_, ?_, hgood, hchain, ?_⟩
          · simp [BlobIoVec.push]
          · intro d hd; simp at hd; subst hd; exact hdo
          · simp only [List.map_cons, List.map_nil, List.sum_cons, List.sum_nil]
            omega
          · omega
          · simp [BlobIoVec.push]
          · intro d hd
            simp only [BlobIoVec.push] at hd
            rcases List.mem_append.mp hd with hd | hd
            · exact huni d hd
            · simp at hd; subst hd; exact hcond
          · intro v hv
            exact hlast v hv
        · rw [if_neg hz] at hok
          have hrec := ih (left - min csz left) (descs.push desc) vec out hok (by omega)
            (by simp [BlobIoVec.push])
            (by
              intro d hd
              simp only [BlobIoVec.push] at hd
              rcases List.mem_append.mp hd with hd | hd
              · exact huni d hd
              · simp at hd; subst hd; exact hcond)
            hgood hchain
            (by
              intro v hv
              exact hlast v hv)
          obtain ⟨ds', hflat, hoffs, hsum, hle, h1, h2, h3, h4, h5⟩ := hrec
          refine ⟨desc :: ds', ?_, ?_, ?_, by omega, h1, h2, h3, h4, h5⟩
          · rw [hflat]
            simp [BlobIoVec.push]
          · intro d hd
            rcases List.mem_cons.mp hd with hd | hd
            · subst hd; exact hdo
            · exact hoffs d hd
          · simp only [List.map_cons, List.sum_cons]
            omega

theorem div_round_up_mul_ge (n d : Nat) (hd : 0 < d) : n ≤ div_round_up n d * d := by
  unfold div_round_up
  cases n with
  | zero => exact Nat.zero_le _
  | succ m =>
    rw [show m + 1 + d - 1 = m + d from by omega, Nat.add_div_right _ hd]
    have hdm : m / d * d + m % d = m := by
      rw [Nat.mul_comm]
      exact Nat.div_add_mod _ _
    have hmlt : m % d < d := Nat.mod_lt _ hd
    have hmul : (m / d + 1) * d = m / d * d + d := by ring
    omega

/-- C1 counterexample: the claim as stated fails for windows of
`2^32` bytes or more.  Reading the whole 4 GiB demo file
(`offset = 0`, `sz = 2^32`) succeeds, but the u32 cast of `left`
truncates the window length to 0: the call returns `Ok` with a single
zero-length descriptor, so the emitted `(content_offset, content_len)`
pairs do not concatenate to the 4 GiB window. -/
theorem alloc_bio_vecs_large_window_truncates :
    alloc_bio_vecs demoInfoBig demoWBig demoStateBig demoDeviceC 0 4294967296 true =
      .ok [{ blob := { blob_index := 0 }
             bi_vec := [{ blob := { blob_index := 0 }, chunkinfo := 7, c_offset := 0,
                          c_len := 0, user_rq := true }] }] ∧
      min (demoInodeBig.size - 0) 4294967296 = 4294967296 := by
  constructor <;> rfl

/-- C1 (amended): for a chunk-based regular file with a readable
chunk-address array, fewer than `2^32` chunks (the u32 bound on
`total_chunk_addresses`), and a read window `[offset, offset + sz)`
meeting `[0, size)` whose intersected length is below `2^32` (longer
windows are truncated mod `2^32` by the u32 cast of `left`), a
successful `alloc_bio_vecs` emits a non-empty descriptor sequence
whose first descriptor has `content_offset = offset mod chunk_size`,
all later descriptors have `content_offset = 0`, the content lengths
sum to `min(size - offset, sz)` (the window length), every descriptor
of one output `BlobIoVec` carries that vector's blob index, and
adjacent output vectors carry different blob indices. -/
theorem alloc_bio_vecs_covers_window (info : DirectCachedInfo) (w : OndiskInodeWrapper)
    (state : DirectMappingState) (device : BlobDevice) (offset sz : Nat) (u : Bool)
    (inode : RafsV6Inode) (vecs : List BlobIoVec)
    (hi : diskInodeAt state w.offset = .ok inode)
    (hcs : 0 < info.chunk_size)
    (htot : div_round_up inode.size info.chunk_size < 2 ^ 32)
    (hoff : offset < inode.size)
    (hsmall : min (inode.size - offset) sz < 2 ^ 32)
    (hok : alloc_bio_vecs info w state device offset sz u = .ok vecs) :
    (∃ d0 ds', flattenVecs vecs = d0 :: ds' ∧
      d0.c_offset = offset % info.chunk_size ∧
      (∀ d ∈ ds', d.c_offset = 0) ∧
      ((d0 :: ds').map BlobIoDesc.c_len).sum = min (inode.size - offset) sz) ∧
    (∀ v ∈ vecs, v.bi_vec ≠ [] ∧ ∀ d ∈ v.bi_vec, d.blob.blob_index = v.blob_index) ∧
    List.Chain' (fun a b => a.blob_index ≠ b.blob_index) vecs := by
  unfold alloc_bio_vecs at hok
  rw [hi] at hok
  simp only [ebind_ok] at hok
  have hhead : offset / info.chunk_size < div_round_up inode.size info.chunk_size := by
    rw [Nat.div_lt_iff_lt_mul hcs]
    have := div_round_up_mul_ge inode.size info.chunk_size hcs
    omega
  rw [Nat.mod_eq_of_lt (lt_trans hhead htot)] at hok
  cases hch : chunk_addresses info w state inode (offset / info.chunk_size) with
  | error e => rw [hch] at hok; simp only [ebind_err] at hok; cases hok
  | ok chunks =>
    rw [hch] at hok
    simp only [ebind_ok] at hok
    have hchne : chunks ≠ [] := by
      unfold chunk_addresses at hch
      rw [Nat.mod_eq_of_lt htot] at hch
      split at hch
      · cases hch
      · simp only [] at hch
        split at hch
        · cases hch
        · unfold FileMapState.get_chunk_addrs at hch
          split at hch
          · cases hch
            simp only [ne_eq, List.map_eq_nil_iff, List.range_eq_nil]
            omega
          · cases hch
    cases chunks with
    | nil => exact absurd rfl hchne
    | cons c0 rest =>
      simp only [] at hok
      rw [if_neg (by omega)] at hok
      rw [Nat.mod_eq_of_lt hsmall] at hok
      split at hok
      · cases hok
      · rename_i desc0 hm0
        obtain ⟨hdo0, hdl0⟩ := make_chunk_io_fields state device c0 (offset % info.chunk_size)
          (min (info.chunk_size - offset % info.chunk_size) (min (inode.size - offset) sz))
          u desc0 hm0
        have hcl0le : min (info.chunk_size - offset % info.chunk_size)
            (min (inode.size - offset) sz) ≤ min (inode.size - offset) sz :=
          min_le_right _ _
        by_cases hz : min (inode.size - offset) sz -
            min (info.chunk_size - offset % info.chunk_size)
              (min (inode.size - offset) sz) = 0
        · rw [if_pos hz] at hok
          rw [if_neg (by simp)] at hok
          rw [if_neg (by simp [BlobIoVec.push])] at hok
          have hv : vecs = [(BlobIoVec.new desc0.blob).push desc0] := by
            cases hok; rfl
          subst hv
          refine ⟨⟨desc0, [], ?_, hdo0, by simp, ?_⟩, ?_, ?_⟩
          · simp [flattenVecs, BlobIoVec.push, BlobIoVec.new]
          · simp only [List.map_cons, List.map_nil, List.sum_cons, List.sum_nil]
            omega
          · intro v hv
            simp at hv
            subst hv
            constructor
            · simp [BlobIoVec.push]
            · intro d hd
              simp [BlobIoVec.push, BlobIoVec.new] at hd
              subst hd
              rfl
          · exact List.chain'_singleton _
        · rw [if_neg hz] at hok
          cases hr : alloc_loop state device info.chunk_size u rest
              (min (inode.size - offset) sz -
                min (info.chunk_size - offset % info.chunk_size)
                  (min (inode.size - offset) sz))
              ((BlobIoVec.new desc0.blob).push desc0) [] with
          | error e => rw [hr] at hok; simp only [ebind_err] at hok; cases hok
          | ok out =>
            rw [hr] at hok
            simp only [ebind_ok] at hok
            have hspec := alloc_loop_spec state device info.chunk_size u rest _ _ _ _ hr
              (by omega)
              (by simp [BlobIoVec.push])
              (by
                intro d hd
                simp [BlobIoVec.push, BlobIoVec.new] at hd
                subst hd
                rfl)
              (by intro v hv; cases hv)
              List.chain'_nil
              (by intro v hv; cases hv)
            obtain ⟨ds', hflat, hoffs, hsum, hle, h1, h2, h3, h4, h5⟩ := hspec
            by_cases hlf : out.2.2 ≠ 0
            · rw [if_pos hlf] at hok; cases hok
            · rw [if_neg hlf] at hok
              rw [if_neg (by simpa using h1)] at hok
              have hv : vecs = out.1 ++ [out.2.1] := by cases hok; rfl
              subst hv
              have hffl : flattenVecs (out.1 ++ [out.2.1]) = desc0 :: ds' := by
                rw [flattenVecs_append_single, hflat]
                simp [flattenVecs, BlobIoVec.push, BlobIoVec.new]
              refine ⟨⟨desc0, ds', hffl, hdo0, hoffs, ?_⟩, ?_, ?_⟩
              · simp only [List.map_cons, List.sum_cons]
                omega
              · intro v hv
                rcases List.mem_append.mp hv with hv | hv
                · exact h3 v hv
                · simp at hv; subst hv; exact ⟨h1, h2⟩
              · rw [List.chain'_append]
                refine ⟨h4, List.chain'_singleton _, ?_⟩
                intro x hx y hy
                simp at hy
                subst hy
                exact h5 x hx

/-- C1 witness: reading `[100, 3100)` of the 5000-byte demo chunk file
(chunks on blobs 0,0,1,1,0) produces the two expected vectors, and the
theorem's hypotheses hold at this input. -/
theorem alloc_bio_vecs_covers_window_witness :
    alloc_bio_vecs demoInfoC demoWC demoStateC demoDeviceC 100 3000 true =
      .ok demoVecsC ∧
    ((∃ d0 ds', flattenVecs demoVecsC = d0 :: ds' ∧
        d0.c_offset = 100 % demoInfoC.chunk_size ∧
        (∀ d ∈ ds', d.c_offset = 0) ∧
        ((d0 :: ds').map BlobIoDesc.c_len).sum = min (demoInodeC.size - 100) 3000) ∧
      (∀ v ∈ demoVecsC, v.bi_vec ≠ [] ∧
        ∀ d ∈ v.bi_vec, d.blob.blob_index = v.blob_index) ∧
      List.Chain' (fun a b => a.blob_index ≠ b.blob_index) demoVecsC) :=
  ⟨rfl, alloc_bio_vecs_covers_window demoInfoC demoWC demoStateC demoDeviceC 100 3000
    true demoInodeC demoVecsC rfl (by decide) (by decide) (by decide) (by decide) rfl⟩

/-! ## C2 — get_child_by_name agrees with the walk -/

theorem find?_append_cons {α : Type} (p : α → Bool) :
    ∀ (l1 : List α) (a : α) (l2 : List α), (∀ x ∈ l1, p x = false) → p a = true →
      (l1 ++ a :: l2).find? p = some a := by
  intro l1
  induction l1 with
  | nil =>
    intro a l2 _ ha
    simp [List.find?_cons, ha]
  | cons x xs ih =>
    intro a l2 h1 ha
    have hx : p x = false := h1 x (List.mem_cons_self _ _)
    simp only [List.cons_append, List.find?_cons, hx]
    exact ih a l2 (fun y hy => h1 y (List.mem_cons_of_mem _ hy)) ha

theorem range_split (n m : Nat) (h : m < n) :
    ∃ tail : List Nat, List.range n = List.range m ++ m :: tail ∧
      ∀ x ∈ tail, m < x ∧ x < n := by
  obtain ⟨k, hk⟩ : ∃ k, n = m + (k + 1) := ⟨n - m - 1, by omega⟩
  subst hk
  refine ⟨(List.range k).map (fun t => m + 1 + t), ?_, ?_⟩
  · rw [List.range_add]
    congr 1
    rw [List.range_succ_eq_map]
    simp only [List.map_cons, Nat.add_zero, List.map_map]
    congr 1
    apply List.map_congr_left
    intro t _
    simp [Function.comp, Nat.succ_eq_add_one]
    omega
  · intro x hx
    simp only [List.mem_map, List.mem_range] at hx
    obtain ⟨t, ht, rfl⟩ := hx
    omega

/-- C2: for a well-formed directory (non-empty blocks with strictly
ascending names inside each block and across consecutive blocks,
readable dirents, names, and child inodes) and any name present in it,
`get_child_by_name` succeeds and returns a child whose nid is exactly
the nid of the first entry with that name emitted by
`walk_children_inodes(d, 0)` in block-then-position order. -/
theorem get_child_by_name_first_match (info : DirectCachedInfo) (w : OndiskInodeWrapper)
    (state : DirectMappingState) (inode : RafsV6Inode) (B : Nat)
    (de : Nat → Nat → RafsV6Dirent) (N : Nat → Nat → List Nat) (ec : Nat → Nat)
    (cw : Nat → Nat → OndiskInodeWrapper) (name : List Nat) (bi bj : Nat)
    (h_inode : diskInodeAt state w.offset = .ok inode)
    (h_size : ¬ inode.size = 0)
    (hB : B = div_round_up inode.size EROFS_BLOCK_SIZE)
    (hec : ∀ i < B, (de i 0).e_nameoff / sizeof_dirent = ec i)
    (hecpos : ∀ i < B, 0 < ec i)
    (h_de : ∀ i < B, ∀ j < ec i, get_entry w state inode i j = .ok (de i j))
    (h_N : ∀ i < B, ∀ j < ec i, entry_name w state inode i j (ec i) = .ok (N i j))
    (h_in : ∀ i < B, ∀ k < ec i, ∀ j < k, bytesLt (N i j) (N i k))
    (h_bl : ∀ k < B, ∀ i < k, bytesLt (N i (ec i - 1)) (N k 0))
    (h_wrap : ∀ i < B, ∀ j < ec i, inode_wrapper info state (de i j).e_nid = .ok (cw i j))
    (hbi : bi < B) (hbj : bj < ec bi) (hname : N bi bj = name) :
    ∃ child,
      get_child_by_name info w state name = .ok child ∧
      walk_children_inodes info w state 0 =
        .ok (((List.range B).map fun i =>
          (List.range (ec i)).map fun j => (N i j, (de i j).e_nid)).flatten) ∧
      ((((List.range B).map fun i =>
          (List.range (ec i)).map fun j => (N i j, (de i j).e_nid)).flatten).find?
        (fun e => e.1 == name)) = some (name, (de bi bj).e_nid) ∧
      child.ino info = (de bi bj).e_nid := by
  have hltle : ∀ a b c : List Nat, bytesLt a b → bytesLe b c → bytesLt a c := by
    intro a b c hab hbc
    rcases (bytesLe_iff b c).mp hbc with h | h
    · exact bytesLt_trans a b c hab h
    · subst h; exact hab
  have hlelt : ∀ a b c : List Nat, bytesLe a b → bytesLt b c → bytesLt a c := by
    intro a b c hab hbc
    rcases (bytesLe_iff a b).mp hab with h | h
    · exact bytesLt_trans a b c h hbc
    · subst h; exact hbc
  have key : ∀ i j i' j', i < B → i' < B → j < ec i → j' < ec i' →
      (i < i' ∨ (i = i' ∧ j < j')) → bytesLt (N i j) (N i' j') := by
    intro i j i' j' hiB hi'B hj hj' hcase
    rcases hcase with hii | ⟨heq, hjj⟩
    · have h1 : bytesLe (N i j) (N i (ec i - 1)) := by
        rcases Nat.lt_or_ge j (ec i - 1) with h0 | h0
        · exact (bytesLe_iff _ _).mpr (Or.inl (h_in i hiB (ec i - 1) (by omega) j h0))
        · have hje : j = ec i - 1 := by omega
          subst hje
          exact (bytesLe_iff _ _).mpr (Or.inr rfl)
      have h2 : bytesLt (N i (ec i - 1)) (N i' 0) := h_bl i' hi'B i hii
      have h3 : bytesLe (N i' 0) (N i' j') := by
        rcases Nat.eq_zero_or_pos j' with h0 | h0
        · subst h0
          exact (bytesLe_iff _ _).mpr (Or.inr rfl)
        · exact (bytesLe_iff _ _).mpr (Or.inl (h_in i' hi'B j' hj' 0 h0))
      exact hltle _ _ _ (hlelt _ _ _ h1 h2) h3
    · subst heq
      exact h_in i hiB j' hj' j hjj
  -- block-level binary search reaches the block holding the name
  have floop : ∀ fuel first last, first ≤ bi → bi ≤ last → last < B →
      last - first < fuel → ftb_loop w state inode name first last 0 fuel = .ok bi := by
    intro fuel
    induction fuel with
    | zero => intro first last h1 h2 h3 h4; omega
    | succ f ihf =>
      intro first last h1 h2 h3 h4
      unfold ftb_loop
      rw [if_pos (show first ≤ last by omega)]
      simp only []
      have hpB : first + (last - first) / 2 < B := by omega
      rw [h_de _ hpB 0 (hecpos _ hpB)]
      simp only [ebind_ok]
      rw [hec _ hpB]
      rw [if_neg (show ¬ ec (first + (last - first) / 2) = 0 from by
        have := hecpos _ hpB; omega)]
      rw [h_N _ hpB 0 (hecpos _ hpB)]
      simp only [ebind_ok]
      rw [h_N _ hpB (ec (first + (last - first) / 2) - 1) (by
        have := hecpos _ hpB; omega)]
      simp only [ebind_ok]
      set p := first + (last - first) / 2 with hpdef
      rcases Nat.lt_trichotomy p bi with hlt | heq | hgt
      · have hnotA : ¬ (bytesLe (N p 0) name ∧ bytesLe name (N p (ec p - 1))) := by
          rintro ⟨-, hA2⟩
          refine hA2 ?_
          rw [← hname]
          exact key p (ec p - 1) bi bj hpB hbi (by have := hecpos p hpB; omega) hbj
            (Or.inl hlt)
        rw [if_neg hnotA]
        have hnlt : ¬ bytesLt name (N p 0) := by
          refine bytesLt_asymm ?_
          rw [← hname]
          exact key p 0 bi bj hpB hbi (hecpos p hpB) hbj (Or.inl hlt)
        rw [if_neg hnlt]
        exact ihf (p + 1) last (by omega) h2 h3 (by omega)
      · rw [heq]
        have hc1 : bytesLe (N bi 0) name := by
          rw [← hname]
          rcases Nat.eq_zero_or_pos bj with h0 | h0
          · subst h0
            exact (bytesLe_iff _ _).mpr (Or.inr rfl)
          · exact (bytesLe_iff _ _).mpr (Or.inl (h_in bi hbi bj hbj 0 h0))
        have hc2 : bytesLe name (N bi (ec bi - 1)) := by
          rw [← hname]
          rcases Nat.lt_or_ge bj (ec bi - 1) with h0 | h0
          · exact (bytesLe_iff _ _).mpr (Or.inl (h_in bi hbi (ec bi - 1) (by omega) bj h0))
          · have hje : bj = ec bi - 1 := by omega
            subst hje
            exact (bytesLe_iff _ _).mpr (Or.inr rfl)
        rw [if_pos ⟨hc1, hc2⟩]
      · have hlt2 : bytesLt name (N p 0) := by
          rw [← hname]
          exact key bi bj p 0 hbi hpB hbj (hecpos p hpB) (Or.inl hgt)
        have hnotA : ¬ (bytesLe (N p 0) name ∧ bytesLe name (N p (ec p - 1))) := by
          rintro ⟨hA1, -⟩
          exact hA1 hlt2
        rw [if_neg hnotA]
        rw [if_pos hlt2]
        rw [if_neg (show ¬ p = 0 by omega)]
        exact ihf first (p - 1) h1 (by omega) (by omega) (by omega)
  have hfb : find_target_block w state name = .ok bi := by
    unfold find_target_block
    rw [h_inode]
    simp only [ebind_ok]
    rw [if_neg h_size]
    rw [← hB]
    exact floop (B + 1) 0 (B - 1) (by omega) (by omega) (by omega) (by omega)
  -- in-block binary search reaches the entry holding the name
  have gloop : ∀ fuel first last, first ≤ bj → bj ≤ last → last < ec bi →
      last - first < fuel →
      gcbn_loop info w state inode name bi (ec bi) first last fuel =
        inode_wrapper_with_info info state (de bi bj).e_nid (w.ino info) name := by
    intro fuel
    induction fuel with
    | zero => intro first last h1 h2 h3 h4; omega
    | succ f ihf =>
      intro first last h1 h2 h3 h4
      unfold gcbn_loop
      rw [if_pos (show first ≤ last by omega)]
      simp only []
      have hpe : first + (last - first) / 2 < ec bi := by omega
      rw [h_de bi hbi _ hpe]
      simp only [ebind_ok]
      rw [h_N bi hbi _ hpe]
      simp only [ebind_ok]
      set p := first + (last - first) / 2 with hpdef
      rcases Nat.lt_trichotomy p bj with hlt | heq | hgt
      · rw [show bytesCmp (N bi p) name = .lt from by
          rw [← hname]; exact h_in bi hbi bj hbj p hlt]
        exact ihf (p + 1) last (by omega) h2 h3 (by omega)
      · rw [heq]
        rw [show bytesCmp (N bi bj) name = .eq from (bytesCmp_eq_iff _ _).mpr hname]
      · rw [show bytesCmp (N bi p) name = .gt from by
          rw [bytesCmp_gt_iff]
          rw [← hname]
          exact h_in bi hbi p hpe bj hgt]
        rw [if_neg (show ¬ p = 0 by omega)]
        exact ihf first (p - 1) h1 (by omega) (by omega) (by omega)
  -- the collecting walk produces exactly the (name, nid) table
  have hwentry : ∀ i, i < B → ∀ l : List Nat, (∀ j ∈ l, j < ec i) →
      walk_entry_list info w state inode i (ec i) l 0 =
        .ok (0, l.map fun j => (N i j, (de i j).e_nid)) := by
    intro i hi l
    induction l with
    | nil => intro _; rfl
    | cons j js ihl =>
      intro hmem
      have hj : j < ec i := hmem j (List.mem_cons_self _ _)
      unfold walk_entry_list
      rw [h_de i hi j hj]
      simp only [ebind_ok]
      rw [h_N i hi j hj]
      simp only [ebind_ok]
      rw [if_neg (by simp)]
      unfold inode_wrapper_with_info
      rw [h_wrap i hi j hj]
      simp only [emap_ok, ebind_ok]
      rw [ihl (fun j' hj' => hmem j' (List.mem_cons_of_mem _ hj'))]
      rfl
  have hwblocks : ∀ l : List Nat, (∀ i ∈ l, i < B) →
      walk_block_list info w state inode l 0 =
        .ok ((l.map fun i =>
          (List.range (ec i)).map fun j => (N i j, (de i j).e_nid)).flatten) := by
    intro l
    induction l with
    | nil => intro _; rfl
    | cons i is ihl =>
      intro hmem
      have hi : i < B := hmem i (List.mem_cons_self _ _)
      unfold walk_block_list
      rw [h_de i hi 0 (hecpos i hi)]
      simp only [ebind_ok]
      rw [hec i hi]
      rw [hwentry i hi (List.range (ec i)) (fun j hj => List.mem_range.mp hj)]
      simp only [ebind_ok]
      rw [ihl (fun i' hi' => hmem i' (List.mem_cons_of_mem _ hi'))]
      rfl
  have hwalk : walk_children_inodes info w state 0 =
      .ok (((List.range B).map fun i =>
        (List.range (ec i)).map fun j => (N i j, (de i j).e_nid)).flatten) := by
    unfold walk_children_inodes
    rw [h_inode]
    simp only [ebind_ok]
    rw [if_neg h_size]
    rw [← hB]
    exact hwblocks (List.range B) (fun i hi => List.mem_range.mp hi)
  -- the first walk entry matching the name is (bi, bj)
  obtain ⟨tB, htB, htBmem⟩ := range_split B bi hbi
  obtain ⟨tE, htE, _⟩ := range_split (ec bi) bj hbj
  have hfind : ((((List.range B).map fun i =>
      (List.range (ec i)).map fun j => (N i j, (de i j).e_nid)).flatten).find?
        (fun e => e.1 == name)) = some (name, (de bi bj).e_nid) := by
    have hdec : (((List.range B).map fun i =>
        (List.range (ec i)).map fun j => (N i j, (de i j).e_nid)).flatten) =
        ((((List.range bi).map fun i =>
            (List.range (ec i)).map fun j => (N i j, (de i j).e_nid)).flatten) ++
          ((List.range bj).map fun j => (N bi j, (de bi j).e_nid))) ++
        ((name, (de bi bj).e_nid) ::
          ((tE.map fun j => (N bi j, (de bi j).e_nid)) ++
            ((tB.map fun i =>
              (List.range (ec i)).map fun j => (N i j, (de i j).e_nid)).flatten))) := by
      rw [htB]
      simp only [List.map_append, List.map_cons, List.flatten_append, List.flatten_cons]
      rw [htE]
      simp only [List.map_append, List.map_cons]
      rw [hname]
      simp [List.append_assoc]
    rw [hdec]
    apply find?_append_cons
    · intro x hx
      rcases List.mem_append.mp hx with hx | hx
      · rw [List.mem_flatten] at hx
        obtain ⟨lx, hlx, hxl⟩ := hx
        rw [List.mem_map] at hlx
        obtain ⟨i, hi, rfl⟩ := hlx
        rw [List.mem_range] at hi
        rw [List.mem_map] at hxl
        obtain ⟨j, hj, rfl⟩ := hxl
        rw [List.mem_range] at hj
        have hne : N i j ≠ name := by
          rw [← hname]
          exact bytesLt_ne (key i j bi bj (by omega) hbi hj hbj (Or.inl hi))
        simpa using hne
      · rw [List.mem_map] at hx
        obtain ⟨j, hj, rfl⟩ := hx
        rw [List.mem_range] at hj
        have hne : N bi j ≠ name := by
          rw [← hname]
          exact bytesLt_ne (key bi j bi bj hbi hbi (by omega) hbj (Or.inr ⟨rfl, hj⟩))
        simpa using hne
    · simp
  -- assemble
  refine ⟨{ cw bi bj with parent_inode := some (w.ino info), name := some name },
    ?_, hwalk, hfind, ?_⟩
  · unfold get_child_by_name
    rw [h_inode]
    simp only [ebind_ok]
    rw [hfb]
    simp only []
    rw [h_de bi hbi 0 (hecpos bi hbi)]
    simp only [ebind_ok]
    rw [hec bi hbi]
    rw [if_neg (show ¬ ec bi = 0 from by have := hecpos bi hbi; omega)]
    rw [gloop (ec bi + 1) 0 (ec bi - 1) (by omega) (by omega)
      (by have := hecpos bi hbi; omega) (by omega)]
    unfold inode_wrapper_with_info
    rw [h_wrap bi hbi bj hbj]
    rfl
  · have hino := wrapper_ino_eq info state (de bi bj).e_nid (cw bi bj)
      (h_wrap bi hbi bj hbj)
    unfold OndiskInodeWrapper.ino at hino ⊢
    simpa using hino

/-- C2 witness: looking up `a` in the demo directory (entries `.`,
`..`, `a` with nids 0, 0, 1) returns a child handle whose ino is 1,
the nid of the first (and only) matching walk entry. -/
theorem get_child_by_name_first_match_witness :
    ∃ child, get_child_by_name demoInfo demoW0 demoState [97] = .ok child ∧
      child.ino demoInfo = 1 := by
  obtain ⟨child, h1, _, _, h4⟩ := get_child_by_name_first_match demoInfo demoW0 demoState
    demoInode0 1 demoDe demoN (fun _ => 3) demoCw [97] 0 2 rfl (by decide) (by decide)
    (by decide) (by decide) (by decide) (by decide) (by decide) (by decide) (by decide)
    (by decide) (by decide) rfl
  refine ⟨child, h1, ?_⟩
  rw [h4]
  rfl

end RafsV6
